import Mathlib

/-!
Verification of the knowledge-distillation-via-pruning core
(`src/pruning/PFEC.py`, `src/models/students/wrapped_student.py`,
`src/trainer/kdp_trainer.py`) against its natural-language specification.

The Python sources are shallowly embedded: tensors become lists of integers
(exact arithmetic in place of floating point), `nn.Module` trees become an
inductive tree type, in-place mutation becomes explicit state passing, and
raised exceptions become `Except` / error-carrying results.
-/

namespace KD

/-! ## Layers and tensors (src/pruning/PFEC.py) -/

/-- The bias slot of a layer: absent (`None` in the source), freshly
initialized by the `nn.Conv2d`/`nn.Linear` constructor (random values never
observed, only the length is recorded), or a tensor of concrete values. -/
inductive BiasVal where
  | none
  | fresh (len : Nat)
  | vals (xs : List Int)
deriving DecidableEq

/-- Data of an `nn.Conv2d` layer.  The weight is stored as one flattened row
per output channel, exactly the view `weight.view(weight.shape[0], -1)` that
`norm_based_pruning` takes of it.  Hyperparameters that the source merely
copies (`kernel_size`, `stride`, `padding`, `dilation`, `groups`,
`padding_mode`) are carried as opaque scalars. -/
structure Conv2dData where
  in_channels : Nat
  out_channels : Nat
  kernel_size : Nat
  stride : Nat
  padding : Nat
  dilation : Nat
  groups : Nat
  padding_mode : String
  weight : List (List Int)
  bias : BiasVal
deriving DecidableEq

/-- Data of an `nn.Linear` layer; the weight has one row per output feature. -/
structure LinearData where
  in_features : Nat
  out_features : Nat
  weight : List (List Int)
  bias : BiasVal
deriving DecidableEq

/-- A layer as dispatched on by `norm_based_pruning`: the source tests
`type(layer) is nn.Conv2d` / `is nn.Linear` and rejects everything else
(`other` carries the printed type name). -/
inductive Layer where
  | conv2d (c : Conv2dData)
  | linear (l : LinearData)
  | other (descr : String)
deriving DecidableEq

def Layer.biasOf : Layer → BiasVal
  | .conv2d c => c.bias
  | .linear l => l.bias
  | .other _ => .none

def Layer.weightOf : Layer → List (List Int)
  | .conv2d c => c.weight
  | .linear l => l.weight
  | .other _ => []

/-- Output dimension: `out_channels` for a convolution, `out_features` for a
fully connected layer. -/
def Layer.outDim : Layer → Nat
  | .conv2d c => c.out_channels
  | .linear l => l.out_features
  | .other _ => 0

def Layer.isSupported : Layer → Prop
  | .conv2d _ => True
  | .linear _ => True
  | .other _ => False

instance : DecidablePred Layer.isSupported := fun layer => by
  cases layer <;> simp [Layer.isSupported] <;> infer_instance

/-- The constructor validations that precede tensor allocation.
`nn.Conv2d.__init__` first evaluates `in_channels % groups` (a zero `groups`
raises `ZeroDivisionError` there) and raises `ValueError` unless `groups`
divides both `in_channels` and the new layer's `out_channels`
(= `num_kept_filter`); only then is the weight allocated and the `bias` flag
tested.  Python's `%` with a positive modulus returns a non-negative
remainder, exactly `Int.emod` (so `(-3) % 2 = 1`).  `nn.Linear` imposes no
such constraint. -/
def Layer.ctorOk : Layer → Int → Prop
  | .conv2d c, k => ¬ c.groups = 0 ∧ c.in_channels % c.groups = 0 ∧
      k % (c.groups : Int) = 0
  | .linear _, _ => True
  | .other _, _ => True

instance : ∀ (layer : Layer) (k : Int), Decidable (layer.ctorOk k)
  | .conv2d c, k => inferInstanceAs (Decidable (¬ c.groups = 0 ∧
      c.in_channels % c.groups = 0 ∧ k % (c.groups : Int) = 0))
  | .linear _, _ => inferInstanceAs (Decidable True)
  | .other _, _ => inferInstanceAs (Decidable True)

/-- Two layers are of the same kind when both are convolutions or both are
fully connected. -/
def sameKind : Layer → Layer → Prop
  | .conv2d _, .conv2d _ => True
  | .linear _, .linear _ => True
  | _, _ => False

/-- Python truthiness of the value the source passes as the constructors'
`bias` flag.  `norm_based_pruning` hands `layer.bias` — a tensor or `None` —
to `nn.Conv2d(...)` / `nn.Linear(...)` where a `bool` is expected; `bool` of a
tensor raises unless the tensor has exactly one element, in which case it is
the truth value of that element.  The truthiness of a freshly initialized
bias is never needed (pruning inputs carry `none` or `vals`). -/
def biasTruthiness : BiasVal → Except String Bool
  | .none => .ok false
  | .fresh _ => .error "truthiness of freshly initialized bias not modelled"
  | .vals xs =>
      if xs.length = 1 then .ok (xs[0]! ≠ 0)
      else .error "Boolean value of Tensor with more than one element is ambiguous"

/-- Squared L2 norm of a flattened weight row.  The source ranks rows by
`torch.norm(row, 2)`; ranking by the squared norm gives the same order and the
same ties, because the square root is strictly monotone. -/
def normSq (row : List Int) : Int := (row.map (fun a => a * a)).sum

/-- Order used to model `torch.topk` index selection: `i` precedes `j` when
its value is larger, ties broken towards the smaller original index.  This is
the documented stable order of the embedding (`torch.topk` returns values in
descending order and leaves the order among ties implementation-defined). -/
def topkKey (vals : List Int) (i j : Nat) : Prop :=
  vals[j]! < vals[i]! ∨ (vals[i]! = vals[j]! ∧ i ≤ j)

instance (vals : List Int) : DecidableRel (topkKey vals) := fun i j => by
  unfold topkKey; infer_instance

/-- `torch.topk(vals, k)[1]`: the indices of the `k` largest entries of
`vals`, in descending order of value; fails when `k` exceeds the length
(`torch.topk` raises a generic runtime error in that case). -/
def topkIdx (vals : List Int) (k : Nat) : Except String (List Nat) :=
  if k ≤ vals.length then
    .ok ((List.insertionSort (topkKey vals) (List.range vals.length)).take k)
  else .error "selected index k out of range"

/-- The `nn.Conv2d` branch of `norm_based_pruning` after the constructor's
divisibility checks have passed: tensor allocation (negative dimension
error), the truthiness of the tensor passed as the `bias` flag, then the
norm/top-k selection and the weight copy. -/
def convPruneCore (c : Conv2dData) (num_kept_filter : Int) : Except String Layer :=
  if num_kept_filter < 0 then
    .error "Trying to create tensor with negative dimension"
  else
    match biasTruthiness c.bias with
    | .error e => .error e
    | .ok hasBias =>
      -- weight_norm = torch.norm(weight.view(weight.shape[0], -1), 2, 1)
      -- idx_kept_filter = torch.topk(weight_norm, num_kept_filter)[1]
      match topkIdx (c.weight.map normSq) num_kept_filter.toNat with
      | .error e => .error e
      | .ok idx =>
          -- new_layer.weight.data = weight[idx_kept_filter]
          .ok (.conv2d { c with
            out_channels := num_kept_filter.toNat
            weight := idx.map (fun i => c.weight[i]!)
            bias := if hasBias then .fresh num_kept_filter.toNat else .none })

/-- `PFEC.norm_based_pruning(layer, num_kept_filter)` (src/pruning/PFEC.py,
lines 23-52).  A new layer of the same kind is constructed with
`num_kept_filter` output units.  For a convolution the constructor first
validates the group constraints — `in_channels % groups` (raising on a zero
`groups`), then divisibility of `in_channels` and of the new `out_channels`
by `groups` — before allocating the weight; it receives `layer.bias` as its
`bias` flag, so it can also fail on a negative dimension or on the
truthiness of a multi-element bias tensor.  Then the new weight is
overwritten with the rows of `layer.weight` selected by `torch.topk` over
the per-row L2 norms.  Only the weight is copied; the new layer's bias keeps
the constructor's fresh initialization.  The nested matches spell out the
source's sequencing, each stage propagating the first raised error.
`self.use_cuda` / `.cuda()` (device movement only) is not modelled. -/
def norm_based_pruning (layer : Layer) (num_kept_filter : Int) :
    Except String Layer :=
  match layer with
  | .conv2d c =>
      -- new_layer = nn.Conv2d(layer.in_channels, num_kept_filter, layer.kernel_size,
      --     layer.stride, layer.padding, layer.dilation, layer.groups, layer.bias,
      --     layer.padding_mode)
      if c.groups = 0 then
        .error "integer division or modulo by zero"
      else if c.in_channels % c.groups ≠ 0 then
        .error "in_channels must be divisible by groups"
      else if num_kept_filter % (c.groups : Int) ≠ 0 then
        .error "out_channels must be divisible by groups"
      else
        convPruneCore c num_kept_filter
  | .linear l =>
      -- new_layer = nn.Linear(layer.in_features, num_kept_filter, layer.bias)
      if num_kept_filter < 0 then
        .error "Trying to create tensor with negative dimension"
      else
        match biasTruthiness l.bias with
        | .error e => .error e
        | .ok hasBias =>
          match topkIdx (l.weight.map normSq) num_kept_filter.toNat with
          | .error e => .error e
          | .ok idx =>
              .ok (.linear { l with
                out_features := num_kept_filter.toNat
                weight := idx.map (fun i => l.weight[i]!)
                bias := if hasBias then .fresh num_kept_filter.toNat else .none })
  | .other descr =>
      .error ("Unsupported type of layer, expect it to be nn.Conv2d or nn.Linear but got: "
        ++ descr)

/-! ### Concrete layers used by witnesses and counterexamples -/

/-- The spec's worked example: a 4-output-channel convolution with row norms
`[1, 5, 2, 8]` (squared: `[1, 25, 4, 64]`), no bias. -/
def convFourRows : Layer := Layer.conv2d {
  in_channels := 1
  out_channels := 4
  kernel_size := 3
  stride := 1
  padding := 1
  dilation := 1
  groups := 1
  padding_mode := "zeros"
  weight := [[1], [5], [2], [8]]
  bias := .none }

/-- A convolution carrying a concrete 2-element bias tensor. -/
def convWithBias2 : Layer := Layer.conv2d {
  in_channels := 1
  out_channels := 2
  kernel_size := 3
  stride := 1
  padding := 1
  dilation := 1
  groups := 1
  padding_mode := "zeros"
  weight := [[3], [4]]
  bias := .vals [1, 1] }

/-- A convolution with a single-element (nonzero) bias tensor. -/
def convWithBias1 : Layer := Layer.conv2d {
  in_channels := 1
  out_channels := 1
  kernel_size := 3
  stride := 1
  padding := 1
  dilation := 1
  groups := 1
  padding_mode := "zeros"
  weight := [[2]]
  bias := .vals [3] }

/-- A bias-free fully connected layer with two output features. -/
def linTwoRows : Layer := Layer.linear {
  in_features := 3
  out_features := 2
  weight := [[1, 0, 0], [0, 2, 0]]
  bias := .none }

/-! ## Module trees and the student wrapper (src/models/students/wrapped_student.py) -/

/-- A parameter tensor: object identity `pid` (Python object identity),
element count `numel`, and the mutable `requires_grad` flag. -/
structure Param where
  pid : Nat
  numel : Nat
  requires_grad : Bool
deriving DecidableEq

/-- An `nn.Module` tree.  `leaf` is a primitive layer (identified by `lid`
and carrying its parameters), `seq` an `nn.Sequential`-like positional
container, `node` a module with named children whose custom forward method
is outside the embedding (see `runTree`). -/
inductive MTree where
  | leaf (lid : Nat) (ps : List Param)
  | seq (children : List MTree)
  | node (children : List (String × MTree))

mutual
/-- Parameters of a module tree, in registration order (`self.parameters()`).
-/
def MTree.params : MTree → List Param
  | .leaf _ ps => ps
  | .seq cs => paramsList cs
  | .node cs => paramsNamed cs

/-- `params` over the children of a positional container. -/
def paramsList : List MTree → List Param
  | [] => []
  | c :: cs => c.params ++ paramsList cs

/-- `params` over named children. -/
def paramsNamed : List (String × MTree) → List Param
  | [] => []
  | (_, c) :: cs => c.params ++ paramsNamed cs
end

/-- `str.isdigit()` of a path segment: nonempty and all characters digits,
evaluated on the character list. -/
def isdigit (s : String) : Bool := !s.data.isEmpty && s.data.all Char.isDigit

/-- `int(elem)` for an all-digit segment, evaluated on the character list. -/
def digitsToNat (s : String) : Nat :=
  s.data.foldl (fun n c => n * 10 + (c.toNat - 48)) 0

/-- Python `block_name.split('.')` (the separator is the single character
`BLOCKS_LEVEL_SPLIT_CHAR = '.'`), modelled on the string's character list so
the split obeys the list-level `splitOn` lemmas (a one-character separator
splits a string exactly at the occurrences of that character, as in Python).
-/
def pySplitDot (s : String) : List String :=
  (s.data.splitOn '.').map (fun cs => { data := cs })

/-- One step of `_get_block`'s reduce (wrapped_student.py lines 128-142): a
digit segment indexes a positional container (`acc[int(elem)]`), any other
segment is an attribute lookup (`getattr(acc, elem)`); `none` models the
raised `IndexError` / `AttributeError` / `TypeError`. -/
def getBlockSeg (m : MTree) (seg : String) : Option MTree :=
  if isdigit seg then
    match m with
    | .seq cs => cs[digitsToNat seg]?
    | _ => none
  else
    match m with
    | .node cs => (cs.find? (fun p => p.1 == seg)).map (fun p => p.2)
    | _ => none

/-- `get_block(block_name, model)` (lines 128-142): split the name on `.` and
fold the segment steps starting from the model root. -/
def get_block (block_name : String) (model : MTree) : Option MTree :=
  (pySplitDot block_name).foldlM (fun acc seg => getBlockSeg acc seg) model

/-- Replace the first entry named `name` in a named-children list, appending
when absent (`nn.Module.__setattr__` on `self._modules`). -/
def replaceEntry : List (String × MTree) → String → MTree → List (String × MTree)
  | [], name, b => [(name, b)]
  | (k, v) :: rest, name, b =>
      if k = name then (name, b) :: rest else (k, v) :: replaceEntry rest name b

/-- `setattr(obj, name, block)` on a module object: on a named-children
module the entry is replaced or appended; a digit name on a positional
container replaces the child at that index (the only positional case the
sources reach: an index previously resolved by `get_block`).  Corners the
sources never exercise (attributes on a primitive layer, digit names on a
named module, out-of-range or non-digit names on a positional container)
leave the tree unchanged. -/
def setAttr (m : MTree) (name : String) (b : MTree) : MTree :=
  if isdigit name then
    match m with
    | .seq cs => .seq (cs.set (digitsToNat name) b)
    | m => m
  else
    match m with
    | .node cs => .node (replaceEntry cs name b)
    | m => m

/-- Apply `f` to the sub-module at `segs` — resolving each step exactly as
`get_block` does — and rebuild the tree; `none` when resolution fails. -/
def modifyAt (m : MTree) (segs : List String) (f : MTree → MTree) : Option MTree :=
  match segs with
  | [] => some (f m)
  | seg :: rest => do
      let c ← getBlockSeg m seg
      let c2 ← modifyAt c rest f
      some (setAttr m seg c2)

/-- Which model object is passed as the `model` argument of
`get_block` / `_set_block`: `self.student` or `self.teacher`. -/
inductive ModelSel where
  | student
  | teacher
deriving DecidableEq

/-- State of `WrappedStudent` (wrapped_student.py).  In the source
`self.model = self.student` are two names for one object, modelled by the
single field `model`.  Hook handlers are modelled by the block names they
were registered with (each handler's closure appends the hooked block's
output to the corresponding hidden-output buffer when the block runs). -/
structure WrappedStudent where
  teacher : MTree
  model : MTree
  replaced_block_names : List String
  student_blocks : List MTree
  teacher_blocks : List MTree
  student_hidden_outputs : List Nat
  teacher_hidden_outputs : List Nat
  student_hook_handlers : List String
  teacher_hook_handlers : List String
  aux_block_names : List String

def WrappedStudent.selTree (ws : WrappedStudent) : ModelSel → MTree
  | .student => ws.model
  | .teacher => ws.teacher

def WrappedStudent.setTree (ws : WrappedStudent) : ModelSel → MTree → WrappedStudent
  | .student, t => { ws with model := t }
  | .teacher, t => { ws with teacher := t }

/-- `_set_block(block_name, block, model)` (lines 111-126).  For a
single-segment name the source executes `setattr(self.model, block_name,
block)` — on the wrapper's own student tree, whatever `model` was passed.
Otherwise the parent path is resolved with `get_block` against the passed
model and the final attribute is set on the resolved object (`modifyAt`
re-resolves that same path functionally and performs the `setattr`); a
resolution failure raises before any mutation. -/
def WrappedStudent._set_block (ws : WrappedStudent) (block_name : String)
    (block : MTree) (model : ModelSel) : Option WrappedStudent :=
  let parts := pySplitDot block_name
  if parts.length = 1 then
    some { ws with model := setAttr ws.model block_name block }
  else
    (modifyAt (ws.selTree model) parts.dropLast
        (fun obj => setAttr obj (parts.getLastD "") block)).map (ws.setTree model)

/-- `register_hint_layers(block_names)` (lines 52-70): for each name, record
it in `aux_block_names`, resolve the teacher and the student block (a failure
raises), then register a forward hook on each side.  `gc.collect()` and
`torch.cuda.empty_cache()` have no observable effect here. -/
def WrappedStudent.register_hint_layers (ws : WrappedStudent)
    (block_names : List String) : Option WrappedStudent :=
  block_names.foldlM (fun ws block_name => do
    let ws2 := { ws with aux_block_names := ws.aux_block_names ++ [block_name] }
    let _ ← get_block block_name ws2.teacher
    let _ ← get_block block_name ws2.model
    some { ws2 with
      teacher_hook_handlers := ws2.teacher_hook_handlers ++ [block_name]
      student_hook_handlers := ws2.student_hook_handlers ++ [block_name] }) ws

/-- Canonical form of a path segment: digit segments denote positions in a
positional container, all others attribute names. -/
def canonSeg (s : String) : Nat ⊕ String :=
  if isdigit s then .inl (digitsToNat s) else .inr s

/-- Canonical path of a registered hook name. -/
def hookPath (name : String) : List (Nat ⊕ String) :=
  (pySplitDot name).map canonSeg

/-- A forward-trace event: the canonical path of a module and the output it
produced in this pass. -/
abbrev TraceEv := (List (Nat ⊕ String)) × Nat

mutual
/-- Forward execution of a module tree on input `x`, with leaf semantics `F`
(`F lid x` is the output of primitive layer `lid` on input `x`).  Returns the
output together with the trace of `(path, output)` events in the order
forward hooks fire: in an `nn.Sequential` the children run in sequence, each
child's event preceding the parent's own event (a module's forward hooks run
when its forward finishes).  A `node` has a user-defined forward method the
embedding cannot know; it emits no events and passes `x` through — theorems
about hook buffers therefore restrict to `seqOnly` trees. -/
def runTree (F : Nat → Nat → Nat) : MTree → List (Nat ⊕ String) → Nat →
    Nat × List TraceEv
  | .leaf lid _, path, x => (F lid x, [(path, F lid x)])
  | .seq cs, path, x =>
      let r := runSeq F cs path 0 x
      (r.1, r.2 ++ [(path, r.1)])
  | .node _, _, x => (x, [])

/-- Run the children of a positional container in order, threading the data
value and collecting the trace; `i` is the index of the first child. -/
def runSeq (F : Nat → Nat → Nat) : List MTree → List (Nat ⊕ String) → Nat → Nat →
    Nat × List TraceEv
  | [], _, _, x => (x, [])
  | c :: cs, path, i, x =>
      let r1 := runTree F c (path ++ [.inl i]) x
      let r2 := runSeq F cs path (i + 1) r1.1
      (r2.1, r1.2 ++ r2.2)
end

mutual
/-- Trees built from primitive layers and positional containers only — the
fragment on which forward execution (and so hook firing) is fully determined
by the structure. -/
def seqOnly : MTree → Bool
  | .leaf _ _ => true
  | .seq cs => seqOnlyList cs
  | .node _ => false

/-- `seqOnly` on a list of children. -/
def seqOnlyList : List MTree → Bool
  | [] => true
  | c :: cs => seqOnly c && seqOnlyList cs
end

/-- Hook-buffer contents produced by one forward pass: at each trace event
(execution order) every hook registered on that block — matched by canonical
path — appends the block's output, in registration order. -/
def bufferFromTrace (trace : List TraceEv) (hooks : List String) : List Nat :=
  trace.flatMap (fun ev =>
    (hooks.filter (fun n => decide (hookPath n = ev.1))).map (fun _ => ev.2))

/-- `forward(x)` (lines 144-156): flush both hidden-output buffers, run the
teacher (`torch.no_grad()` changes no forward value), then run the student;
return `(student_pred, teacher_pred)` together with the post-pass state. -/
def WrappedStudent.forward (F : Nat → Nat → Nat) (ws : WrappedStudent) (x : Nat) :
    (Nat × Nat) × WrappedStudent :=
  let ws1 := { ws with student_hidden_outputs := [], teacher_hidden_outputs := [] }
  let tRun := runTree F ws1.teacher [] x
  let ws2 := { ws1 with
    teacher_hidden_outputs := bufferFromTrace tRun.2 ws1.teacher_hook_handlers }
  let sRun := runTree F ws2.model [] x
  let ws3 := { ws2 with
    student_hidden_outputs := bufferFromTrace sRun.2 ws2.student_hook_handlers }
  ((sRun.1, tRun.1), ws3)

/-- `reset()` (lines 165-184): the body raises `Exception('Not
Implemented...')` unconditionally as its first statement; everything after
the `raise` (removing hooks, shuffling the bookkeeping lists into
`saved_student_blocks` / `saved_distillation_args`, attributes that are
never defined anywhere) is unreachable dead code.  Modelled in the
error-carrying state monad so the state visible at the raise is explicit. -/
def WrappedStudent.reset : EStateM String WrappedStudent Unit := do
  throw "Not Implemented..."

/-- `self.parameters()` of the wrapper: `self.teacher` is registered before
`self.model` in `__init__`, so the teacher's parameters come first; the
bookkeeping block lists are plain Python lists (not `nn.ModuleList`s) and
contribute nothing. -/
def WrappedStudent.parameters (ws : WrappedStudent) : List Param :=
  ws.teacher.params ++ ws.model.params

/-- `dump_trainable_params()` (lines 213-216): the element-count sum over the
parameters with `requires_grad` (the source formats this number into the
string "Trainable parameters: {}"). -/
def WrappedStudent.dump_trainable_params (ws : WrappedStudent) : Nat :=
  ((ws.parameters.filter (fun p => p.requires_grad)).map (fun p => p.numel)).sum

/-- A wrapper whose teacher and student trees have a single named child
`"a"`, holding different blocks. -/
def wsSmall : WrappedStudent := {
  teacher := .node [("a", .leaf 1 [])]
  model := .node [("a", .leaf 2 [])]
  replaced_block_names := []
  student_blocks := []
  teacher_blocks := []
  student_hidden_outputs := []
  teacher_hidden_outputs := []
  student_hook_handlers := []
  teacher_hook_handlers := []
  aux_block_names := [] }

/-- A wrapper with nested trees (a named child holding a positional
container), teacher and student differing at the nested leaves. -/
def wsNested : WrappedStudent := {
  teacher := .node [("a", .seq [.leaf 1 [], .leaf 2 []])]
  model := .node [("a", .seq [.leaf 3 [], .leaf 4 []])]
  replaced_block_names := []
  student_blocks := []
  teacher_blocks := []
  student_hidden_outputs := []
  teacher_hidden_outputs := []
  student_hook_handlers := []
  teacher_hook_handlers := []
  aux_block_names := [] }

mutual
/-- The canonical paths of all sub-modules of a tree below prefix `p`, in the
order their forward-hook events fire (`runTree`'s trace paths, which do not
depend on the data value). -/
def treePaths : MTree → List (Nat ⊕ String) → List (List (Nat ⊕ String))
  | .leaf _ _, p => [p]
  | .seq cs, p => seqPaths cs p 0 ++ [p]
  | .node _, _ => []

/-- Companion of `treePaths` for the children of a positional container,
the first child sitting at index `i`. -/
def seqPaths : List MTree → List (Nat ⊕ String) → Nat → List (List (Nat ⊕ String))
  | [], _, _ => []
  | c :: cs, p, i => treePaths c (p ++ [.inl i]) ++ seqPaths cs p (i + 1)
end

/-- The output recorded in a forward trace for the block at canonical path
`q` (the unique event at `q`, when the trace paths are distinct). -/
def traceVal (trace : List TraceEv) (q : List (Nat ⊕ String)) : Nat :=
  ((trace.find? (fun ev => decide (ev.1 = q))).map (fun ev => ev.2)).getD 0

/-- A wrapper whose teacher and student are the same two-block sequential
network. -/
def wsTwoSeq : WrappedStudent := {
  teacher := .seq [.leaf 1 [], .leaf 2 []]
  model := .seq [.leaf 1 [], .leaf 2 []]
  replaced_block_names := []
  student_blocks := []
  teacher_blocks := []
  student_hidden_outputs := []
  teacher_hidden_outputs := []
  student_hook_handlers := []
  teacher_hook_handlers := []
  aux_block_names := [] }

/-- `wsTwoSeq` after registering hint layers at `["0", "1"]` (execution
order). -/
def wsTwoSeqReg : WrappedStudent := {
  teacher := .seq [.leaf 1 [], .leaf 2 []]
  model := .seq [.leaf 1 [], .leaf 2 []]
  replaced_block_names := []
  student_blocks := []
  teacher_blocks := []
  student_hidden_outputs := []
  teacher_hidden_outputs := []
  student_hook_handlers := ["0", "1"]
  teacher_hook_handlers := ["0", "1"]
  aux_block_names := ["0", "1"] }

/-- `wsTwoSeq` after registering hint layers at `["1", "0"]` (the reverse of
the execution order). -/
def wsTwoSeqRegRev : WrappedStudent := {
  teacher := .seq [.leaf 1 [], .leaf 2 []]
  model := .seq [.leaf 1 [], .leaf 2 []]
  replaced_block_names := []
  student_blocks := []
  teacher_blocks := []
  student_hidden_outputs := []
  teacher_hidden_outputs := []
  student_hook_handlers := ["1", "0"]
  teacher_hook_handlers := ["1", "0"]
  aux_block_names := ["1", "0"] }

/-! ## KDP trainer (src/trainer/kdp_trainer.py) -/

/-- One optimizer parameter group: the parameters it references and its
learning rate (other hyperparameters of `config['optimizer']['args']` are
carried alike and not modelled individually). -/
structure ParamGroup where
  params : List Param
  lr : Rat

/-- `torch.optim` optimizer state: an object identity (to distinguish a
freshly constructed optimizer from the one it replaces) and its parameter
groups. -/
structure Optimizer where
  oid : Nat
  param_groups : List ParamGroup

/-- A learning-rate scheduler: it holds a reference to the optimizer it was
constructed over. -/
structure Scheduler where
  optRef : Nat
deriving DecidableEq

/-- One entry of `config['pruning']['pruning_plan']`:
`{name, epoch, compress_rate?, lr?}`. -/
structure PlanEntry where
  name : String
  epoch : Nat
  compress_rate : Option Rat
  lr : Option Rat

/-- `DistillationArgs = namedtuple('DistillationArgs', ['old_block_name',
'new_block', 'new_block_name'])`. -/
structure DistillationArgs where
  old_block_name : String
  new_block : MTree
  new_block_name : String

/-- State of `KDPTrainer`: the wrapped student model, the injected pruner
(abstract — the trainer only calls `self.pruner.prune(layer, compress_rate)`
and observes its result or its raised error), the optimizer/scheduler pair,
the declarative pruning plan and the configured defaults
(`config['pruning']['compress_rate']`, `config['optimizer']['args']['lr']`).
`fresh` is the next unused object identity handed out by the
optimizer/scheduler factory; `ta_count` is `self._ta_count`. -/
structure KDPTrainer where
  model : WrappedStudent
  pruner : MTree → Rat → Except String MTree
  optimizer : Optimizer
  lr_scheduler : Scheduler
  pruning_plan : List PlanEntry
  compress_rate : Rat
  config_lr : Rat
  fresh : Nat
  ta_count : Nat

mutual
/-- `param.requires_grad = False` applied to every parameter of a tree. -/
def MTree.freezeAll : MTree → MTree
  | .leaf lid ps => .leaf lid (ps.map (fun p => { p with requires_grad := false }))
  | .seq cs => .seq (freezeAllList cs)
  | .node cs => .node (freezeAllNamed cs)

/-- `freezeAll` over the children of a positional container. -/
def freezeAllList : List MTree → List MTree
  | [] => []
  | c :: cs => c.freezeAll :: freezeAllList cs

/-- `freezeAll` over named children. -/
def freezeAllNamed : List (String × MTree) → List (String × MTree)
  | [] => []
  | (k, c) :: cs => (k, c.freezeAll) :: freezeAllNamed cs
end

/-- `for param in self.model.parameters(): param.requires_grad = False`
(kdp_trainer.py lines 24-26): the wrapper's parameters are the teacher's and
the student's, so both trees are frozen. -/
def KDPTrainer.freezeModel (t : KDPTrainer) : KDPTrainer :=
  { t with model := { t.model with
      teacher := t.model.teacher.freezeAll
      model := t.model.model.freezeAll } }

/-- Modelled from the spec: the trainer calls `self.model.get_block(name)`
with a single argument; `base_student.py` (absent from the sources) resolves
the named block on the student tree (spec §4.5 step 3, "resolve its block",
over the wrapper of §4.4). -/
def KDPTrainer.getStudentBlock (t : KDPTrainer) (name : String) : Option MTree :=
  get_block name t.model.model

/-- `layers = [self.model.get_block(layer['name']) for layer in
to_be_pruned_layers]` (line 40); the first unresolvable name raises. -/
def resolveLayers (t : KDPTrainer) (entries : List PlanEntry) : Option (List MTree) :=
  entries.mapM (fun e => t.getStudentBlock e.name)

/-- The pruning loop (lines 43-49): each due layer is pruned with the entry's
`compress_rate` if present, else the trainer's default; the first pruner
error aborts the loop.  No trainer state is touched here. -/
def pruneLayers (t : KDPTrainer) : List (PlanEntry × MTree) → Except String (List MTree)
  | [] => .ok []
  | (e, layer) :: rest =>
      match t.pruner layer (e.compress_rate.getD t.compress_rate) with
      | .error s => .error s
      | .ok nb =>
          match pruneLayers t rest with
          | .error s => .error s
          | .ok nbs => .ok (nb :: nbs)

/-- All parameters referenced by an optimizer's groups. -/
def optParams (o : Optimizer) : List Param :=
  o.param_groups.flatMap (fun g => g.params)

/-- Total element count over an optimizer's parameter groups. -/
def optimizerNumel (o : Optimizer) : Nat :=
  ((optParams o).map (fun p => p.numel)).sum

/-- `torch.optim.Optimizer.add_param_group`: appends the group, raising when
some parameter already occurs in an existing group. -/
def add_param_group (o : Optimizer) (g : ParamGroup) : Except String Optimizer :=
  if g.params.any (fun p =>
      o.param_groups.any (fun g2 => g2.params.any (fun q => q.pid = p.pid))) then
    .error "some parameters appear in more than one parameter group"
  else .ok { o with param_groups := o.param_groups ++ [g] }

/-- `list(filter(lambda x: x.requires_grad, self.model.parameters()))`. -/
def KDPTrainer.trainableParams (t : KDPTrainer) : List Param :=
  t.model.parameters.filter (fun p => p.requires_grad)

/-- One iteration of the optimizer-surgery loop of `KDPTrainer.prune`
(lines 55-72).  `optimizer_arg` is a deep copy of
`config['optimizer']['args']` (modelled by its learning rate) with the
entry's `lr` override applied when present.  On the first new layer, when
the model has no trainable parameter, a fresh optimizer over exactly the new
layer's parameters and a fresh scheduler over that optimizer are constructed
(`config.init_obj`, modelled from the spec's optimizer/scheduler factory: a
new object identity, one group at the configured learning rate), and then
every group's `lr` is set to `optimizer_arg['lr']`.  Otherwise the new
layer's parameters join the existing optimizer as one additional group
carrying `optimizer_arg`. -/
def surgeryStep (t : KDPTrainer) (i : Nat) (e : PlanEntry) (nb : MTree) :
    Except String KDPTrainer :=
  let lr := e.lr.getD t.config_lr
  if i = 0 ∧ t.trainableParams = [] then
    let opt : Optimizer := { oid := t.fresh
                             param_groups := [{ params := nb.params, lr := t.config_lr }] }
    let sched : Scheduler := { optRef := opt.oid }
    let opt2 : Optimizer := { opt with
      param_groups := opt.param_groups.map (fun g => { g with lr := lr }) }
    .ok { t with optimizer := opt2, lr_scheduler := sched, fresh := t.fresh + 1 }
  else
    match add_param_group t.optimizer { params := nb.params, lr := lr } with
    | .error s => .error s
    | .ok opt => .ok { t with optimizer := opt }

/-- The optimizer-surgery loop over the due entries, in plan order; a raise
carries the state mutated so far. -/
def surgeryLoop :
    KDPTrainer → List (PlanEntry × MTree) → Nat → Except (String × KDPTrainer) KDPTrainer
  | t, [], _ => .ok t
  | t, (e, nb) :: rest, i =>
      match surgeryStep t i e nb with
      | .error s => .error (s, t)
      | .ok t2 => surgeryLoop t2 rest (i + 1)

/-- Modelled from the spec: `update_pruned_layers(args)` lives in
`base_student.py`, absent from the sources.  Per §4.4 (`replace`) and §4.5
step 4 it walks the args in order; for each one it records the teacher block
and the bookkeeping entries and replaces the student block at the path with
the new block (via the wrapper's `_set_block`).  A resolution failure raises
(the partial bookkeeping state at such a raise is not modelled; no theorem
depends on it). -/
def update_pruned_layers (ws : WrappedStudent) (args : List DistillationArgs) :
    Option WrappedStudent :=
  args.foldlM (fun ws a => do
    let tb ← get_block a.old_block_name ws.teacher
    let ws2 := { ws with
      replaced_block_names := ws.replaced_block_names ++ [a.old_block_name]
      teacher_blocks := ws.teacher_blocks ++ [tb]
      student_blocks := ws.student_blocks ++ [a.new_block] }
    ws2._set_block a.new_block_name a.new_block ModelSel.student) ws

/-- The body of a non-empty pruning event, starting from the state `t2`
after the blanket freeze and the `_ta_count` reset (kdp_trainer.py lines
40-77): resolve the due blocks, prune them all, perform the optimizer
surgery in plan order, then install every new block into the student model
with a single `update_pruned_layers` call. -/
def KDPTrainer.pruneCore (t2 : KDPTrainer) (toBePruned : List PlanEntry) :
    Except (String × KDPTrainer) KDPTrainer :=
  match resolveLayers t2 toBePruned with
  | none => .error ("AttributeError", t2)
  | some layers =>
    match pruneLayers t2 (toBePruned.zip layers) with
    | .error s => .error (s, t2)
    | .ok newLayers =>
      match surgeryLoop t2 (toBePruned.zip newLayers) 0 with
      | .error st => .error st
      | .ok t3 =>
        -- add new blocks to student model
        match update_pruned_layers t3.model ((toBePruned.zip newLayers).map (fun pr =>
            { old_block_name := pr.1.name
              new_block := pr.2
              new_block_name := pr.1.name : DistillationArgs })) with
        | none => .error ("AttributeError", t3)
        | some ws2 => .ok { t3 with model := ws2 }

/-- `KDPTrainer.prune(epoch)` (kdp_trainer.py lines 23-77), in-place mutation
as explicit state passing; a raised exception carries the state at the
raise.  Logging and printing have no observable effect and are omitted
(`dump_trainable_params` / `dump_student_teacher_blocks_info` are evaluated
for logs only). -/
def KDPTrainer.prune (t0 : KDPTrainer) (epoch : Nat) :
    Except (String × KDPTrainer) KDPTrainer :=
  -- freeze all previous layers
  let t1 := t0.freezeModel
  -- get ALL layers that will be pruned in this step
  let toBePruned := t1.pruning_plan.filter (fun e => e.epoch = epoch)
  -- there isn't any layer would be pruned at this epoch
  if toBePruned.isEmpty then .ok t1
  else
    -- reset TA interval, then prune, do optimizer surgery and install
    KDPTrainer.pruneCore { t1 with ta_count := 1 } toBePruned

/-- Trainable parameters used by the concrete trainer instances. -/
def kdpParamA : Param := { pid := 1, numel := 4, requires_grad := true }

def kdpParamB : Param := { pid := 2, numel := 5, requires_grad := true }

/-- A wrapper over a two-block model for the trainer instances. -/
def wsTrainer : WrappedStudent := {
  teacher := .node [("a", .leaf 1 [kdpParamA]), ("b", .leaf 2 [kdpParamB])]
  model := .node [("a", .leaf 1 [kdpParamA]), ("b", .leaf 2 [kdpParamB])]
  replaced_block_names := []
  student_blocks := []
  teacher_blocks := []
  student_hidden_outputs := []
  teacher_hidden_outputs := []
  student_hook_handlers := []
  teacher_hook_handlers := []
  aux_block_names := [] }

/-- A trainer whose pruner fails on the second due block (`"b"`, `leaf 2`)
of the two entries scheduled at epoch 5. -/
def kdpFailing : KDPTrainer := {
  model := wsTrainer
  pruner := fun m _ =>
    match m with
    | .leaf 2 _ => .error "boom"
    | _ => .ok (.leaf 9 [])
  optimizer := { oid := 0, param_groups := [{ params := [kdpParamA, kdpParamB], lr := 1 }] }
  lr_scheduler := { optRef := 0 }
  pruning_plan := [{ name := "a", epoch := 5, compress_rate := none, lr := none },
    { name := "b", epoch := 5, compress_rate := none, lr := none }]
  compress_rate := 1
  config_lr := 1
  fresh := 1
  ta_count := 0 }

/-- No parameter object shared between two parameter lists (Python object
identity, modelled by `pid`). -/
def disjointIds (a b : List Param) : Prop :=
  ∀ p ∈ a, ∀ q ∈ b, p.pid ≠ q.pid

instance (a b : List Param) : Decidable (disjointIds a b) := by
  unfold disjointIds
  infer_instance

/-- A trainer whose pruner succeeds on every leaf, producing a block with a
frozen 3-element parameter and a trainable 2-element parameter (mirroring
PFEC: a frozen pruned layer followed by a trainable transform block); two
entries are due at epoch 5, the first carrying an `lr` override. -/
def kdpOk : KDPTrainer := {
  model := wsTrainer
  pruner := fun m _ =>
    match m with
    | .leaf lid _ => .ok (.leaf (10 + lid) [
        { pid := 100 + lid, numel := 3, requires_grad := false },
        { pid := 200 + lid, numel := 2, requires_grad := true }])
    | _ => .error "unsupported"
  optimizer := { oid := 0, param_groups := [{ params := [kdpParamA, kdpParamB], lr := 1 }] }
  lr_scheduler := { optRef := 0 }
  pruning_plan := [{ name := "a", epoch := 5, compress_rate := none, lr := some 7 },
    { name := "b", epoch := 5, compress_rate := none, lr := none }]
  compress_rate := 1
  config_lr := 3
  fresh := 1
  ta_count := 0 }

/-- The wrapper state after `kdpOk`'s epoch-5 event: both student blocks
replaced by the pruner's outputs, bookkeeping filled, everything frozen by
the blanket freeze except the new blocks' trainable parameters. -/
def wsTrainerPruned : WrappedStudent := {
  teacher := .node [("a", .leaf 1 [{ pid := 1, numel := 4, requires_grad := false }]),
    ("b", .leaf 2 [{ pid := 2, numel := 5, requires_grad := false }])]
  model := .node [("a", .leaf 11 [{ pid := 101, numel := 3, requires_grad := false },
      { pid := 201, numel := 2, requires_grad := true }]),
    ("b", .leaf 12 [{ pid := 102, numel := 3, requires_grad := false },
      { pid := 202, numel := 2, requires_grad := true }])]
  replaced_block_names := ["a", "b"]
  student_blocks := [.leaf 11 [{ pid := 101, numel := 3, requires_grad := false },
      { pid := 201, numel := 2, requires_grad := true }],
    .leaf 12 [{ pid := 102, numel := 3, requires_grad := false },
      { pid := 202, numel := 2, requires_grad := true }]]
  teacher_blocks := [.leaf 1 [{ pid := 1, numel := 4, requires_grad := false }],
    .leaf 2 [{ pid := 2, numel := 5, requires_grad := false }]]
  student_hidden_outputs := []
  teacher_hidden_outputs := []
  student_hook_handlers := []
  teacher_hook_handlers := []
  aux_block_names := [] }

/-- Like `kdpOk` but with a single plan entry at epoch 5 (block `"a"`). -/
def kdpOne : KDPTrainer := {
  model := wsTrainer
  pruner := fun m _ =>
    match m with
    | .leaf lid _ => .ok (.leaf (10 + lid) [
        { pid := 100 + lid, numel := 3, requires_grad := false },
        { pid := 200 + lid, numel := 2, requires_grad := true }])
    | _ => .error "unsupported"
  optimizer := { oid := 0, param_groups := [{ params := [kdpParamA, kdpParamB], lr := 1 }] }
  lr_scheduler := { optRef := 0 }
  pruning_plan := [{ name := "a", epoch := 5, compress_rate := none, lr := none }]
  compress_rate := 1
  config_lr := 3
  fresh := 1
  ta_count := 0 }

/-! ## Top-k selection lemmas -/

theorem topkKey_total (vals : List Int) : ∀ i j, topkKey vals i j ∨ topkKey vals j i := by
  intro i j
  unfold topkKey
  rcases lt_trichotomy (vals[i]!) (vals[j]!) with h | h | h
  · exact Or.inr (Or.inl h)
  · rcases Nat.le_total i j with hij | hij
    · exact Or.inl (Or.inr ⟨h, hij⟩)
    · exact Or.inr (Or.inr ⟨h.symm, hij⟩)
  · exact Or.inl (Or.inl h)

theorem topkKey_trans (vals : List Int) :
    ∀ i j l, topkKey vals i j → topkKey vals j l → topkKey vals i l := by
  intro i j l hij hjl
  unfold topkKey at *
  rcases hij with h1 | ⟨h1, h1'⟩ <;> rcases hjl with h2 | ⟨h2, h2'⟩
  · exact Or.inl (h2.trans h1)
  · exact Or.inl (h2 ▸ h1)
  · exact Or.inl (lt_of_lt_of_le h2 (le_of_eq h1.symm)) |>.imp id id
  · exact Or.inr ⟨h1.trans h2, h1'.trans h2'⟩

/-- `topkIdx vals k` (for `k` in range) returns `k` distinct in-range indices
whose values dominate every unselected value, ties resolved towards the
smaller index. -/
theorem topkIdx_spec (vals : List Int) (k : Nat) (hk : k ≤ vals.length) :
    ∃ idx, topkIdx vals k = .ok idx ∧ idx.length = k ∧ idx.Nodup ∧
      (∀ i ∈ idx, i < vals.length) ∧
      ∀ i ∈ idx, ∀ j, j < vals.length → j ∉ idx →
        vals[j]! < vals[i]! ∨ (vals[j]! = vals[i]! ∧ i < j) := by
  haveI hT : IsTotal Nat (topkKey vals) := ⟨topkKey_total vals⟩
  haveI hTr : IsTrans Nat (topkKey vals) := ⟨topkKey_trans vals⟩
  set sorted := List.insertionSort (topkKey vals) (List.range vals.length) with hs
  have hperm : sorted.Perm (List.range vals.length) := List.perm_insertionSort _ _
  have hsortednd : sorted.Nodup := hperm.nodup_iff.mpr (List.nodup_range _)
  have hlen : sorted.length = vals.length := by
    simpa using hperm.length_eq
  have hsorted : List.Sorted (topkKey vals) sorted := List.sorted_insertionSort _ _
  refine ⟨sorted.take k, ?_, ?_, ?_, ?_, ?_⟩
  · simp [topkIdx, hk, hs]
  · simp [hlen, hk]
  · exact List.Nodup.sublist (List.take_sublist _ _) hsortednd
  · intro i hi
    have : i ∈ sorted := List.mem_of_mem_take hi
    have : i ∈ List.range vals.length := hperm.mem_iff.mp this
    simpa using this
  · intro i hi j hj hj2
    have hjmem : j ∈ sorted := hperm.mem_iff.mpr (by simpa using hj)
    have hjmem2 : j ∈ sorted.take k ++ sorted.drop k := by
      rw [List.take_append_drop]; exact hjmem
    have hd : j ∈ sorted.drop k := by
      rcases List.mem_append.mp hjmem2 with h | h
      · exact absurd h hj2
      · exact h
    have hpw : List.Pairwise (topkKey vals) (sorted.take k ++ sorted.drop k) := by
      simpa [List.take_append_drop] using hsorted
    have hkey : topkKey vals i j := (List.pairwise_append.mp hpw).2.2 i hi j hd
    have hne : i ≠ j := by
      intro h
      exact hj2 (h ▸ hi)
    rcases hkey with h | ⟨h, h'⟩
    · exact Or.inl h
    · exact Or.inr ⟨h.symm, lt_of_le_of_ne h' hne⟩

theorem getElem_bang_map_normSq (w : List (List Int)) (i : Nat) (hi : i < w.length) :
    (w.map normSq)[i]! = normSq (w[i]!) := by
  rw [getElem!_pos (w.map normSq) i (by simpa using hi),
      getElem!_pos w i hi, List.getElem_map]

/-- Shared core of the C1 theorem, stated over the weight rows of either
supported layer kind. -/
theorem topk_rows_spec (w : List (List Int)) (k : Nat) (hk : k ≤ w.length) :
    ∃ idx, topkIdx (w.map normSq) k = .ok idx ∧ idx.length = k ∧ idx.Nodup ∧
      (∀ i ∈ idx, i < w.length) ∧
      ∀ i ∈ idx, ∀ j, j < w.length → j ∉ idx →
        normSq (w[j]!) < normSq (w[i]!) ∨ (normSq (w[j]!) = normSq (w[i]!) ∧ i < j) := by
  obtain ⟨idx, h1, h2, h3, h4, h5⟩ := topkIdx_spec (w.map normSq) k (by simpa using hk)
  refine ⟨idx, h1, h2, h3, by simpa using h4, ?_⟩
  intro i hi j hj hj2
  have hi' : i < w.length := by simpa using h4 i hi
  have h := h5 i hi j (by simpa using hj) hj2
  rwa [getElem_bang_map_normSq w i hi', getElem_bang_map_normSq w j hj] at h

/-- On a convolution whose constructor checks pass, `norm_based_pruning`
reduces to the allocation / bias-flag / top-k stage. -/
theorem norm_based_pruning_conv2d_eq (c : Conv2dData) (k : Int)
    (hg : ¬ c.groups = 0) (hin : c.in_channels % c.groups = 0)
    (hk : k % (c.groups : Int) = 0) :
    norm_based_pruning (.conv2d c) k = convPruneCore c k := by
  simp only [norm_based_pruning]
  rw [if_neg hg, if_neg (not_not_intro hin), if_neg (not_not_intro hk)]

/-! ## C1: norm_based_pruning keeps the top-k rows -/

/-- C1 (amended): on a supported layer without bias and a `k` the
constructor admits (for a convolution: a nonzero `groups` dividing
`in_channels` and `k`; nothing for a linear layer), `norm_based_pruning`
returns a layer of the same kind whose output dimension is `k` and whose
weight rows are the `k` rows of the original weight of largest L2 norm, ties
broken towards the smaller row index (the embedding's documented stable
order), copied verbatim.  (For a layer with a multi-element bias the call
fails instead — see the counterexample; a convolution whose `groups` does
not divide `k` fails with the constructor's `ValueError`.) -/
theorem norm_based_pruning_keeps_topk (layer : Layer) (k : Int)
    (hwf : layer.outDim = layer.weightOf.length)
    (hsupp : layer.isSupported) (hbias : layer.biasOf = .none)
    (hctor : layer.ctorOk k)
    (hk0 : 0 < k) (hkn : k ≤ (layer.outDim : Int)) :
    ∃ new : Layer, norm_based_pruning layer k = .ok new ∧
      sameKind layer new ∧ new.outDim = k.toNat ∧
      ∃ idx : List Nat, idx.length = k.toNat ∧ idx.Nodup ∧
        (∀ i ∈ idx, i < layer.weightOf.length) ∧
        new.weightOf = idx.map (fun i => layer.weightOf[i]!) ∧
        ∀ i ∈ idx, ∀ j, j < layer.weightOf.length → j ∉ idx →
          normSq (layer.weightOf[j]!) < normSq (layer.weightOf[i]!) ∨
            (normSq (layer.weightOf[j]!) = normSq (layer.weightOf[i]!) ∧ i < j) := by
  cases layer with
  | other d => exact absurd hsupp (by simp [Layer.isSupported])
  | conv2d c =>
    have hbias' : c.bias = .none := hbias
    have hwf' : c.out_channels = c.weight.length := hwf
    have hkn' : k ≤ (c.out_channels : Int) := hkn
    have hknat : k.toNat ≤ c.weight.length := by omega
    have hnneg : ¬ k < 0 := by omega
    obtain ⟨idx, hok, hlen, hnd, hmem, hdom⟩ := topk_rows_spec c.weight k.toNat hknat
    refine ⟨Layer.conv2d { c with
        out_channels := k.toNat
        weight := idx.map (fun i => c.weight[i]!)
        bias := .none },
      ?_, trivial, rfl, idx, hlen, hnd, hmem, rfl, hdom⟩
    obtain ⟨hg, hin, hkdiv⟩ := hctor
    rw [norm_based_pruning_conv2d_eq c k hg hin hkdiv]
    simp only [convPruneCore, hnneg, if_false, hbias', biasTruthiness, hok]
    try rfl
  | linear l =>
    have hbias' : l.bias = .none := hbias
    have hwf' : l.out_features = l.weight.length := hwf
    have hkn' : k ≤ (l.out_features : Int) := hkn
    have hknat : k.toNat ≤ l.weight.length := by omega
    have hnneg : ¬ k < 0 := by omega
    obtain ⟨idx, hok, hlen, hnd, hmem, hdom⟩ := topk_rows_spec l.weight k.toNat hknat
    refine ⟨Layer.linear { l with
        out_features := k.toNat
        weight := idx.map (fun i => l.weight[i]!)
        bias := .none },
      ?_, trivial, rfl, idx, hlen, hnd, hmem, rfl, hdom⟩
    simp only [norm_based_pruning, hnneg, if_false, hbias', biasTruthiness, hok]
    try rfl

/-- C1 witness: the spec's own example — a 4-row weight with squared norms
`[1, 25, 4, 64]` and `k = 2` keeps the two rows of largest norm. -/
theorem norm_based_pruning_keeps_topk_witness :
    ∃ new : Layer, norm_based_pruning convFourRows 2 = .ok new ∧
      sameKind convFourRows new ∧ new.outDim = 2 ∧
      ∃ idx : List Nat, idx.length = 2 ∧ idx.Nodup ∧
        (∀ i ∈ idx, i < convFourRows.weightOf.length) ∧
        new.weightOf = idx.map (fun i => convFourRows.weightOf[i]!) ∧
        ∀ i ∈ idx, ∀ j, j < convFourRows.weightOf.length → j ∉ idx →
          normSq (convFourRows.weightOf[j]!) < normSq (convFourRows.weightOf[i]!) ∨
            (normSq (convFourRows.weightOf[j]!) = normSq (convFourRows.weightOf[i]!) ∧ i < j) :=
  norm_based_pruning_keeps_topk convFourRows 2 rfl trivial rfl (by decide) (by decide)
    (by decide)

/-- C1 counterexample: for a supported layer that carries a (2-element) bias
tensor and `k = 1` (a valid target), `norm_based_pruning` does not return a
pruned layer at all: the source hands `layer.bias` to `nn.Conv2d` as its
boolean `bias` flag, and the truthiness of a multi-element tensor raises.
So the claim, quantified over every supported layer, fails. -/
theorem norm_based_pruning_bias_crash_cex :
    norm_based_pruning convWithBias2 1 =
      .error "Boolean value of Tensor with more than one element is ambiguous" := by
  rfl

/-! ## C2: no validation of num_kept_filter -/

/-- C2 (amended): `norm_based_pruning` performs no validation of its own on
`num_kept_filter` and raises no dedicated invalid-prune-ratio error.  On a
supported layer without bias whose constructor admits `k` (vacuous for a
linear layer): every `num_kept_filter` from `0` up to the row count is
accepted and yields a layer with that output dimension (in particular
`num_kept_filter = 0` is not rejected); a negative value fails only at
tensor construction, and a value above the row count fails only inside
`torch.topk`.  When a convolution's `groups` does not divide `k` (which, by
Python `%` semantics, covers every negative `k` with `groups ≥ 2`), the
failure is instead `nn.Conv2d`'s `ValueError` — still a generic constructor
error, not a prune-ratio check. -/
theorem norm_based_pruning_no_validation (layer : Layer) (k : Int)
    (hwf : layer.outDim = layer.weightOf.length)
    (hsupp : layer.isSupported) (hbias : layer.biasOf = .none) :
    (layer.ctorOk k → k < 0 → norm_based_pruning layer k =
        .error "Trying to create tensor with negative dimension") ∧
    (layer.ctorOk k → 0 ≤ k → k ≤ (layer.outDim : Int) →
        ∃ new, norm_based_pruning layer k = .ok new ∧ new.outDim = k.toNat) ∧
    (layer.ctorOk k → (layer.outDim : Int) < k → norm_based_pruning layer k =
        .error "selected index k out of range") ∧
    (∀ c, layer = .conv2d c → ¬ c.groups = 0 → c.in_channels % c.groups = 0 →
        ¬ k % (c.groups : Int) = 0 →
        norm_based_pruning layer k =
          .error "out_channels must be divisible by groups") := by
  cases layer with
  | other d => exact absurd hsupp (by simp [Layer.isSupported])
  | conv2d c =>
    have hbias' : c.bias = .none := hbias
    have hwf' : c.out_channels = c.weight.length := hwf
    refine ⟨fun hctor hneg => ?_, fun hctor hk0 hkn => ?_,
      fun hctor hgt => ?_, fun c' heq hg hin hk => ?_⟩
    · obtain ⟨hg, hin, hkdiv⟩ := hctor
      rw [norm_based_pruning_conv2d_eq c k hg hin hkdiv]
      simp [convPruneCore, hneg]
    · obtain ⟨hg, hin, hkdiv⟩ := hctor
      have hkn' : k ≤ (c.out_channels : Int) := hkn
      have hknat : k.toNat ≤ c.weight.length := by omega
      have hnneg : ¬ k < 0 := by omega
      obtain ⟨idx, hok, hlen, hnd, hmem, hdom⟩ := topk_rows_spec c.weight k.toNat hknat
      refine ⟨Layer.conv2d { c with
          out_channels := k.toNat
          weight := idx.map (fun i => c.weight[i]!)
          bias := .none }, ?_, rfl⟩
      rw [norm_based_pruning_conv2d_eq c k hg hin hkdiv]
      simp only [convPruneCore, hnneg, if_false, hbias', biasTruthiness, hok]
      try rfl
    · obtain ⟨hg, hin, hkdiv⟩ := hctor
      have hgt' : (c.out_channels : Int) < k := hgt
      have hnneg : ¬ k < 0 := by omega
      have hknat : ¬ k.toNat ≤ (c.weight.map normSq).length := by
        simp only [List.length_map]
        omega
      rw [norm_based_pruning_conv2d_eq c k hg hin hkdiv]
      simp only [convPruneCore, hnneg, if_false, hbias', biasTruthiness,
        topkIdx, hknat]
      try rfl
    · injection heq with h
      subst h
      simp only [norm_based_pruning]
      rw [if_neg hg, if_neg (not_not_intro hin), if_pos hk]
  | linear l =>
    have hbias' : l.bias = .none := hbias
    have hwf' : l.out_features = l.weight.length := hwf
    refine ⟨fun _ hneg => ?_, fun _ hk0 hkn => ?_, fun _ hgt => ?_,
      fun c' heq _ _ _ => Layer.noConfusion heq⟩
    · simp [norm_based_pruning, hneg]
    · have hkn' : k ≤ (l.out_features : Int) := hkn
      have hknat : k.toNat ≤ l.weight.length := by omega
      have hnneg : ¬ k < 0 := by omega
      obtain ⟨idx, hok, hlen, hnd, hmem, hdom⟩ := topk_rows_spec l.weight k.toNat hknat
      refine ⟨Layer.linear { l with
          out_features := k.toNat
          weight := idx.map (fun i => l.weight[i]!)
          bias := .none }, ?_, rfl⟩
      simp only [norm_based_pruning, hnneg, if_false, hbias', biasTruthiness, hok]
      try rfl
    · have hgt' : (l.out_features : Int) < k := hgt
      have hnneg : ¬ k < 0 := by omega
      have hknat : ¬ k.toNat ≤ (l.weight.map normSq).length := by
        simp only [List.length_map]
        omega
      simp only [norm_based_pruning, hnneg, if_false, hbias', biasTruthiness,
        topkIdx, hknat]
      try rfl

/-- C2 witness: instantiation at a concrete bias-free linear layer and
`num_kept_filter = 0` (the constructor constraint is vacuous there). -/
theorem norm_based_pruning_no_validation_witness :
    (linTwoRows.ctorOk 0 → (0 : Int) < 0 → norm_based_pruning linTwoRows 0 =
        .error "Trying to create tensor with negative dimension") ∧
    (linTwoRows.ctorOk 0 → (0 : Int) ≤ 0 → (0 : Int) ≤ (linTwoRows.outDim : Int) →
        ∃ new, norm_based_pruning linTwoRows 0 = .ok new ∧ new.outDim = (0 : Int).toNat) ∧
    (linTwoRows.ctorOk 0 → (linTwoRows.outDim : Int) < 0 → norm_based_pruning linTwoRows 0 =
        .error "selected index k out of range") ∧
    (∀ c, linTwoRows = .conv2d c → ¬ c.groups = 0 → c.in_channels % c.groups = 0 →
        ¬ (0 : Int) % (c.groups : Int) = 0 →
        norm_based_pruning linTwoRows 0 =
          .error "out_channels must be divisible by groups") :=
  norm_based_pruning_no_validation linTwoRows 0 rfl trivial rfl

/-- C2 counterexample: `num_kept_filter = 0` is not rejected — the call
constructs and returns a layer with zero output features instead of failing
with an invalid-prune-ratio error. -/
theorem norm_based_pruning_accepts_zero_cex :
    norm_based_pruning linTwoRows 0 =
      .ok (Layer.linear { in_features := 3, out_features := 0,
                          weight := [], bias := .none }) := by
  rfl

/-! ## C3: the bias is never copied -/

/-- C3 (amended): the bias is never copied.  For any layer whose bias is a
concrete tensor `xs`: when the constructor admits `k` (vacuous for a linear
layer; for a convolution, `groups` nonzero and dividing `in_channels` and
`k`) and `xs` has more than one element, the call fails outright at layer
construction (truthiness of a multi-element tensor); and whenever a new
layer is returned, its bias is the constructor's fresh initialization or
absent — never a tensor of copied values. -/
theorem norm_based_pruning_never_copies_bias (layer : Layer) (k : Int) (xs : List Int)
    (hbias : layer.biasOf = .vals xs) :
    (0 ≤ k → layer.ctorOk k → 1 < xs.length → norm_based_pruning layer k =
        .error "Boolean value of Tensor with more than one element is ambiguous") ∧
    (∀ new, norm_based_pruning layer k = .ok new → ∀ ys, new.biasOf ≠ .vals ys) := by
  cases layer with
  | other d =>
    refine ⟨fun _ _ _ => absurd hbias (by simp [Layer.biasOf]), fun new h ys => ?_⟩
    simp [norm_based_pruning] at h
  | conv2d c =>
    have hbias' : c.bias = .vals xs := hbias
    constructor
    · intro hk0 hctor hlen
      obtain ⟨hg, hin, hkdiv⟩ := hctor
      have hnneg : ¬ k < 0 := by omega
      have hne : ¬ xs.length = 1 := by omega
      rw [norm_based_pruning_conv2d_eq c k hg hin hkdiv]
      simp only [convPruneCore, hnneg, if_false, hbias', biasTruthiness, hne]
      try rfl
    · intro new h ys
      by_cases hg : c.groups = 0
      · simp only [norm_based_pruning, if_pos hg] at h
        exact Except.noConfusion h
      by_cases hin : c.in_channels % c.groups = 0
      case neg =>
        simp only [norm_based_pruning, if_neg hg, if_pos hin] at h
        exact Except.noConfusion h
      by_cases hkdiv : k % (c.groups : Int) = 0
      case neg =>
        simp only [norm_based_pruning, if_neg hg,
          if_neg (not_not_intro hin), if_pos hkdiv] at h
        exact Except.noConfusion h
      rw [norm_based_pruning_conv2d_eq c k hg hin hkdiv] at h
      by_cases hneg : k < 0
      · simp only [convPruneCore, hneg, if_true] at h
        exact Except.noConfusion h
      · cases hbt : biasTruthiness c.bias with
        | error e =>
          simp only [convPruneCore, hneg, if_false, hbt] at h
          exact Except.noConfusion h
        | ok b =>
          cases hti : topkIdx (c.weight.map normSq) k.toNat with
          | error e =>
            simp only [convPruneCore, hneg, if_false, hbt, hti] at h
            exact Except.noConfusion h
          | ok idx =>
            simp only [convPruneCore, hneg, if_false, hbt, hti, Except.ok.injEq] at h
            subst h
            cases b <;> simp [Layer.biasOf]
  | linear l =>
    have hbias' : l.bias = .vals xs := hbias
    constructor
    · intro hk0 _ hlen
      have hnneg : ¬ k < 0 := by omega
      have hne : ¬ xs.length = 1 := by omega
      simp only [norm_based_pruning, hnneg, if_false, hbias', biasTruthiness, hne]
      try rfl
    · intro new h ys
      by_cases hneg : k < 0
      · simp only [norm_based_pruning, hneg, if_true] at h
        exact Except.noConfusion h
      · cases hbt : biasTruthiness l.bias with
        | error e =>
          simp only [norm_based_pruning, hneg, if_false, hbt] at h
          exact Except.noConfusion h
        | ok b =>
          cases hti : topkIdx (l.weight.map normSq) k.toNat with
          | error e =>
            simp only [norm_based_pruning, hneg, if_false, hbt, hti] at h
            exact Except.noConfusion h
          | ok idx =>
            simp only [norm_based_pruning, hneg, if_false, hbt, hti, Except.ok.injEq] at h
            subst h
            cases b <;> simp [Layer.biasOf]

/-- C3 witness: instantiation at a concrete convolution (`groups = 1`) with
a 2-element bias. -/
theorem norm_based_pruning_never_copies_bias_witness :
    ((0 : Int) ≤ 1 → convWithBias2.ctorOk 1 → 1 < [(1 : Int), 1].length →
        norm_based_pruning convWithBias2 1 =
          .error "Boolean value of Tensor with more than one element is ambiguous") ∧
    (∀ new, norm_based_pruning convWithBias2 1 = .ok new →
        ∀ ys, new.biasOf ≠ .vals ys) :=
  norm_based_pruning_never_copies_bias convWithBias2 1 [1, 1] rfl

/-- C3 counterexample: a convolution with a single-element nonzero bias does
return a new layer, but the new layer's bias is the constructor's fresh
initialization, not the selected row `[3]` of the original bias — nothing is
copied. -/
theorem norm_based_pruning_fresh_bias_cex :
    norm_based_pruning convWithBias1 1 =
      .ok (Layer.conv2d { in_channels := 1, out_channels := 1,
                          kernel_size := 3, stride := 1, padding := 1,
                          dilation := 1, groups := 1, padding_mode := "zeros",
                          weight := [[2]], bias := .fresh 1 }) ∧
    BiasVal.fresh 1 ≠ BiasVal.vals [3] := by
  exact ⟨by rfl, by decide⟩


/-! ## Block addressing lemmas (C8, C10) -/

theorem pySplitDot_ne_nil (s : String) : pySplitDot s ≠ [] := by
  unfold pySplitDot
  intro h
  rw [List.map_eq_nil_iff] at h
  exact List.splitOnP_ne_nil _ _ h

theorem pySplitDot_eq_single (s : String) (h : (pySplitDot s).length = 1) :
    pySplitDot s = [s] := by
  have hic : [('.' : Char)].intercalate (s.data.splitOn '.') = s.data :=
    List.intercalate_splitOn s.data '.'
  unfold pySplitDot at h ⊢
  rcases hsp : s.data.splitOn '.' with _ | ⟨l, rest⟩
  · rw [hsp] at h
    simp at h
  · rcases rest with _ | ⟨l2, rest2⟩
    · rw [hsp] at hic
      simp [List.intercalate] at hic
      subst hic
      rfl
    · rw [hsp] at h
      simp at h

theorem set_getElem_self {α : Type _} :
    ∀ (l : List α) (i : Nat) (b : α), l[i]? = some b → l.set i b = l
  | [], i, b, h => by simp at h
  | a :: l, 0, b, h => by
      simp at h
      simp [h]
  | a :: l, i + 1, b, h => by
      simp at h
      simp [set_getElem_self l i b h]

theorem replaceEntry_self :
    ∀ (cs : List (String × MTree)) (seg : String) (b : MTree),
      (cs.find? (fun p => p.1 == seg)).map (fun p => p.2) = some b →
      replaceEntry cs seg b = cs
  | [], seg, b, h => by simp at h
  | (k, v) :: rest, seg, b, h => by
      by_cases hk : (k == seg) = true
      · have hk2 : k = seg := by simpa using hk
        rw [List.find?_cons_of_pos _ (by simpa using hk)] at h
        simp at h
        simp [replaceEntry, hk2, h]
      · rw [List.find?_cons_of_neg _ (by simpa using hk)] at h
        have hk2 : ¬ k = seg := by simpa using hk
        simp [replaceEntry, hk2, replaceEntry_self rest seg b h]

theorem setAttr_of_getBlockSeg (m : MTree) (seg : String) (b : MTree)
    (h : getBlockSeg m seg = some b) : setAttr m seg b = m := by
  by_cases hd : isdigit seg
  · cases m with
    | seq cs =>
      have h2 : cs[digitsToNat seg]? = some b := by
        simpa [getBlockSeg, hd] using h
      simp [setAttr, hd, set_getElem_self cs _ b h2]
    | leaf lid ps => simp [getBlockSeg, hd] at h
    | node cs => simp [getBlockSeg, hd] at h
  · cases m with
    | node cs =>
      have h2 : (cs.find? (fun p => p.1 == seg)).map (fun p => p.2) = some b := by
        simpa [getBlockSeg, hd] using h
      simp [setAttr, hd, replaceEntry_self cs seg b h2]
    | leaf lid ps => simp [getBlockSeg, hd] at h
    | seq cs => simp [getBlockSeg, hd] at h

theorem modifyAt_setAttr_self (b : MTree) :
    ∀ (segs : List String) (m : MTree) (seg2 : String),
      (segs ++ [seg2]).foldlM (fun acc seg => getBlockSeg acc seg) m = some b →
      modifyAt m segs (fun obj => setAttr obj seg2 b) = some m := by
  intro segs
  induction segs with
  | nil =>
    intro m seg2 h
    have hstep : getBlockSeg m seg2 = some b := by
      simpa [List.foldlM] using h
    simp [modifyAt, setAttr_of_getBlockSeg m seg2 b hstep]
  | cons seg rest ih =>
    intro m seg2 h
    rw [List.cons_append] at h
    cases hc : getBlockSeg m seg with
    | none => simp [List.foldlM_cons, hc] at h
    | some c =>
      have h2 : (rest ++ [seg2]).foldlM (fun acc seg => getBlockSeg acc seg) c = some b := by
        simpa [List.foldlM_cons, hc] using h
      simp [modifyAt, hc, ih c seg2 h2, setAttr_of_getBlockSeg m seg c hc]

/-! ## C8: resolve-then-replace round trip -/

/-- C8 (amended): resolving a path with `get_block` and immediately writing
the returned block back at the same path with `_set_block` leaves the wrapper
unchanged — for every multi-segment path on either tree and for
single-segment paths on the student tree.  For a single-segment path resolved
against the teacher tree the round trip instead clobbers the student tree
(`_set_block` ignores its `model` argument in that branch; see the
counterexample), so that case is excluded. -/
theorem get_set_roundtrip (ws : WrappedStudent) (block_name : String)
    (b : MTree) (model : ModelSel)
    (hres : get_block block_name (ws.selTree model) = some b)
    (hok : 2 ≤ (pySplitDot block_name).length ∨ model = ModelSel.student) :
    ws._set_block block_name b model = some ws := by
  unfold WrappedStudent._set_block
  by_cases hlen : (pySplitDot block_name).length = 1
  · have hparts : pySplitDot block_name = [block_name] := pySplitDot_eq_single _ hlen
    have hmodel : model = ModelSel.student := by
      rcases hok with h | h
      · omega
      · exact h
    subst hmodel
    have hstep : getBlockSeg ws.model block_name = some b := by
      unfold get_block at hres
      rw [hparts] at hres
      simpa [List.foldlM] using hres
    simp [hlen, setAttr_of_getBlockSeg ws.model block_name b hstep]
  · rcases List.eq_nil_or_concat (pySplitDot block_name) with hnil | ⟨init, seg2, hsplit⟩
    · exact absurd hnil (pySplitDot_ne_nil block_name)
    · rw [List.concat_eq_append] at hsplit
      unfold get_block at hres
      rw [hsplit] at hres hlen ⊢
      have hmod : modifyAt (ws.selTree model) init (fun obj => setAttr obj seg2 b) =
          some (ws.selTree model) := modifyAt_setAttr_self b init _ seg2 hres
      have hdl : (init ++ [seg2]).dropLast = init := by
        simp
      have hgl : (init ++ [seg2]).getLastD "" = seg2 := by
        simp
      rw [if_neg hlen, hdl, hgl, hmod]
      cases model with
      | student => rfl
      | teacher => rfl

/-- C8 witness: a nested path (`"a.1"`) resolved on the teacher tree and
written back leaves the wrapper unchanged. -/
theorem get_set_roundtrip_witness :
    wsNested._set_block "a.1" (MTree.leaf 2 []) ModelSel.teacher = some wsNested :=
  get_set_roundtrip wsNested "a.1" (MTree.leaf 2 []) ModelSel.teacher rfl
    (Or.inl (by decide))

/-- C8 counterexample: resolving the single-segment path `"a"` on the
*teacher* tree and writing the same block back does not leave the trees
unchanged — the write lands on the student tree (`setattr(self.model, ...)`),
whose block at `"a"` changes from `leaf 2` to the teacher's `leaf 1`. -/
theorem get_set_roundtrip_cex :
    get_block "a" (wsSmall.selTree ModelSel.teacher) = some (MTree.leaf 1 []) ∧
    get_block "a" wsSmall.model = some (MTree.leaf 2 []) ∧
    (∃ ws2, wsSmall._set_block "a" (MTree.leaf 1 []) ModelSel.teacher = some ws2 ∧
      get_block "a" ws2.model = some (MTree.leaf 1 [])) ∧
    MTree.leaf 1 [] ≠ MTree.leaf 2 [] := by
  refine ⟨rfl, rfl, ⟨_, rfl, rfl⟩, ?_⟩
  intro h
  exact absurd (MTree.leaf.injEq 1 [] 2 [] ▸ h) (by simp)

/-! ## C10: single-segment _set_block writes the student tree -/

/-- C10: for a single-segment block name, `_set_block` performs
`setattr(self.model, block_name, block)` — the write is applied to the
wrapper's own student tree and the `model` argument is ignored; in
particular the teacher tree is never modified by this branch. -/
theorem set_block_single_ignores_model (ws : WrappedStudent)
    (block_name : String) (block : MTree) (model : ModelSel)
    (h : (pySplitDot block_name).length = 1) :
    ws._set_block block_name block model =
      some { ws with model := setAttr ws.model block_name block } := by
  unfold WrappedStudent._set_block
  simp [h]

/-- C10 witness: a single-segment replacement requested against the teacher
tree mutates the student tree and leaves the teacher untouched. -/
theorem set_block_single_ignores_model_witness :
    wsSmall._set_block "a" (MTree.leaf 9 []) ModelSel.teacher =
      some { wsSmall with model := setAttr wsSmall.model "a" (MTree.leaf 9 []) } :=
  set_block_single_ignores_model wsSmall "a" (MTree.leaf 9 []) ModelSel.teacher (by decide)

/-! ## C7: reset always fails and changes nothing -/

/-- C7: `reset()` raises on its first statement (`Exception('Not
Implemented...')`): the call always fails and the state at the raise is
exactly the state before the call — hook handler lists, bookkeeping lists and
both model trees untouched. -/
theorem reset_always_fails_no_state_change (ws : WrappedStudent) :
    WrappedStudent.reset.run ws = .error "Not Implemented..." ws := rfl


/-! ## Forward traces and hook buffers (C6) -/

mutual
theorem runTree_paths (F : Nat → Nat → Nat) (t : MTree) (p : List (Nat ⊕ String)) (x : Nat) :
    ((runTree F t p x).2).map (fun ev => ev.1) = treePaths t p := by
  cases t with
  | leaf lid ps => simp [runTree, treePaths]
  | seq cs => simp [runTree, treePaths, runSeq_paths F cs p 0 x]
  | node cs => simp [runTree, treePaths]

theorem runSeq_paths (F : Nat → Nat → Nat) (cs : List MTree) (p : List (Nat ⊕ String))
    (i : Nat) (x : Nat) :
    ((runSeq F cs p i x).2).map (fun ev => ev.1) = seqPaths cs p i := by
  cases cs with
  | nil => simp [runSeq, seqPaths]
  | cons c cs =>
    simp [runSeq, seqPaths, runTree_paths F c (p ++ [.inl i]) x,
      runSeq_paths F cs p (i + 1) (runTree F c (p ++ [.inl i]) x).1]
end

mutual
theorem treePaths_extend (t : MTree) (p : List (Nat ⊕ String)) :
    ∀ q ∈ treePaths t p, ∃ r, q = p ++ r := by
  cases t with
  | leaf lid ps =>
    intro q hq
    simp [treePaths] at hq
    exact ⟨[], by simp [hq]⟩
  | seq cs =>
    intro q hq
    rcases List.mem_append.mp hq with h | h
    · obtain ⟨j, r, _, hr⟩ := seqPaths_extend cs p 0 q h
      exact ⟨.inl j :: r, hr⟩
    · simp at h
      exact ⟨[], by simp [h]⟩
  | node cs =>
    intro q hq
    simp [treePaths] at hq

theorem seqPaths_extend (cs : List MTree) (p : List (Nat ⊕ String)) (i : Nat) :
    ∀ q ∈ seqPaths cs p i, ∃ j r, i ≤ j ∧ q = p ++ .inl j :: r := by
  cases cs with
  | nil =>
    intro q hq
    simp [seqPaths] at hq
  | cons c cs =>
    intro q hq
    rcases List.mem_append.mp hq with h | h
    · obtain ⟨r, hr⟩ := treePaths_extend c (p ++ [.inl i]) q h
      exact ⟨i, r, le_refl i, by simp [hr]⟩
    · obtain ⟨j, r, hj, hr⟩ := seqPaths_extend cs p (i + 1) q h
      exact ⟨j, r, by omega, hr⟩
end

theorem seqOnly_seq_cons (c : MTree) (cs : List MTree) :
    seqOnly (.seq (c :: cs)) = (seqOnly c && seqOnly (.seq cs)) := rfl

mutual
theorem treePaths_nodup (t : MTree) (p : List (Nat ⊕ String)) (h : seqOnly t = true) :
    (treePaths t p).Nodup := by
  cases t with
  | leaf lid ps => simp [treePaths]
  | seq cs =>
    rw [treePaths]
    rw [List.nodup_append]
    refine ⟨seqPaths_nodup cs p 0 h, by simp, ?_⟩
    intro q hq hq2
    simp at hq2
    obtain ⟨j, r, _, hr⟩ := seqPaths_extend cs p 0 q hq
    rw [hq2] at hr
    have : p.length = (p ++ .inl j :: r).length := by rw [← hr]
    simp at this
  | node cs => simp [seqOnly] at h

theorem seqPaths_nodup (cs : List MTree) (p : List (Nat ⊕ String)) (i : Nat)
    (h : seqOnly (.seq cs) = true) : (seqPaths cs p i).Nodup := by
  cases cs with
  | nil => simp [seqPaths]
  | cons c cs =>
    rw [seqOnly_seq_cons, Bool.and_eq_true] at h
    rw [seqPaths]
    rw [List.nodup_append]
    refine ⟨treePaths_nodup c (p ++ [.inl i]) h.1, seqPaths_nodup cs p (i + 1) h.2, ?_⟩
    intro q hq1 hq2
    obtain ⟨r1, hr1⟩ := treePaths_extend c (p ++ [.inl i]) q hq1
    obtain ⟨j, r2, hj, hr2⟩ := seqPaths_extend cs p (i + 1) q hq2
    rw [hr1] at hr2
    have h2 : (.inl i : Nat ⊕ String) :: r1 = .inl j :: r2 := by
      have := hr2
      rw [List.append_assoc] at this
      simpa using List.append_cancel_left this
    have : i = j := by
      have h3 := List.head_eq_of_cons_eq h2
      simpa using h3
    omega
end

theorem seqOnly_child : ∀ (cs : List MTree) (d : Nat) (c : MTree),
    seqOnly (.seq cs) = true → cs[d]? = some c → seqOnly c = true
  | [], d, c, h, hc => by simp at hc
  | c0 :: cs, 0, c, h, hc => by
      rw [seqOnly_seq_cons, Bool.and_eq_true] at h
      simp at hc
      rw [← hc]
      exact h.1
  | c0 :: cs, d + 1, c, h, hc => by
      rw [seqOnly_seq_cons, Bool.and_eq_true] at h
      simp at hc
      exact seqOnly_child cs d c h.2 hc

theorem self_mem_treePaths (t : MTree) (p : List (Nat ⊕ String)) (h : seqOnly t = true) :
    p ∈ treePaths t p := by
  cases t with
  | leaf lid ps => simp [treePaths]
  | seq cs => simp [treePaths]
  | node cs => simp [seqOnly] at h

theorem seqPaths_of_child (q : List (Nat ⊕ String)) :
    ∀ (cs : List MTree) (p : List (Nat ⊕ String)) (i d : Nat) (c : MTree),
      cs[d]? = some c → q ∈ treePaths c (p ++ [.inl (i + d)]) → q ∈ seqPaths cs p i
  | [], p, i, d, c, hc, hq => by simp at hc
  | c0 :: cs, p, i, 0, c, hc, hq => by
      simp at hc
      rw [seqPaths]
      refine List.mem_append.mpr (Or.inl ?_)
      rw [hc]
      simpa using hq
  | c0 :: cs, p, i, d + 1, c, hc, hq => by
      simp at hc
      rw [seqPaths]
      refine List.mem_append.mpr (Or.inr ?_)
      refine seqPaths_of_child q cs p (i + 1) d c hc ?_
      have : i + (d + 1) = (i + 1) + d := by omega
      rwa [this] at hq

/-- A successful step-by-step resolution of canonical segments lands on a
path that the forward trace visits. -/
theorem resolve_mem_treePaths :
    ∀ (segs : List String) (t : MTree) (p : List (Nat ⊕ String)) (b : MTree),
      seqOnly t = true →
      segs.foldlM (fun acc seg => getBlockSeg acc seg) t = some b →
      (p ++ segs.map canonSeg) ∈ treePaths t p
  | [], t, p, b, hs, hres => by
      simpa using self_mem_treePaths t p hs
  | seg :: rest, t, p, b, hs, hres => by
      cases t with
      | node cs => simp [seqOnly] at hs
      | leaf lid ps =>
        rw [List.foldlM_cons] at hres
        by_cases hd : isdigit seg <;> simp [getBlockSeg, hd] at hres
      | seq cs =>
        rw [List.foldlM_cons] at hres
        by_cases hd : isdigit seg
        · cases hc : cs[digitsToNat seg]? with
          | none => simp [getBlockSeg, hd, hc] at hres
          | some c =>
            have hres2 : rest.foldlM (fun acc seg => getBlockSeg acc seg) c = some b := by
              simpa [getBlockSeg, hd, hc] using hres
            have hcseq : seqOnly c = true := seqOnly_child cs (digitsToNat seg) c hs hc
            have hmem := resolve_mem_treePaths rest c (p ++ [.inl (digitsToNat seg)]) b hcseq hres2
            have hcanon : canonSeg seg = .inl (digitsToNat seg) := by
              simp [canonSeg, hd]
            rw [treePaths]
            refine List.mem_append.mpr (Or.inl ?_)
            refine seqPaths_of_child _ cs p 0 (digitsToNat seg) c hc ?_
            have hz : 0 + digitsToNat seg = digitsToNat seg := by omega
            rw [hz]
            rw [List.map_cons, hcanon]
            simpa [List.append_assoc] using hmem
        · simp [getBlockSeg, hd] at hres

theorem traceVal_cons_pos (ev : TraceEv) (rest : List TraceEv)
    (q : List (Nat ⊕ String)) (h : ev.1 = q) : traceVal (ev :: rest) q = ev.2 := by
  unfold traceVal
  rw [List.find?_cons_of_pos _ (by simpa using h)]
  rfl

theorem traceVal_cons_neg (ev : TraceEv) (rest : List TraceEv)
    (q : List (Nat ⊕ String)) (h : ¬ ev.1 = q) :
    traceVal (ev :: rest) q = traceVal rest q := by
  unfold traceVal
  rw [List.find?_cons_of_neg _ (by simpa using h)]

theorem filter_eq_singleton_of_unique {α : Type _} :
    ∀ (l : List α) (p : α → Bool) (a : α),
      a ∈ l → p a = true → l.Nodup → (∀ b ∈ l, p b = true → b = a) →
      l.filter p = [a]
  | [], p, a, ha, hpa, hnd, hu => by simp at ha
  | x :: l, p, a, ha, hpa, hnd, hu => by
      rcases List.mem_cons.mp ha with h | h
      · subst h
        rw [List.filter_cons_of_pos hpa]
        have hrest : l.filter p = [] := by
          rw [List.filter_eq_nil_iff]
          intro b hb hpb
          have hba := hu b (List.mem_cons_of_mem _ hb) hpb
          subst hba
          exact (List.nodup_cons.mp hnd).1 hb
        rw [hrest]
      · have hxa : x ≠ a := by
          intro he
          subst he
          exact (List.nodup_cons.mp hnd).1 h
        have hpx : ¬ p x = true := by
          intro hpe
          exact hxa (hu x (List.mem_cons_self x l) hpe)
        rw [List.filter_cons_of_neg hpx]
        exact filter_eq_singleton_of_unique l p a h hpa (List.nodup_cons.mp hnd).2
          (fun b hb hpb => hu b (List.mem_cons_of_mem _ hb) hpb)

theorem filter_erase_of_neg {α : Type _} [DecidableEq α] :
    ∀ (l : List α) (p : α → Bool) (a : α), ¬ p a = true →
      (l.erase a).filter p = l.filter p
  | [], p, a, hpa => rfl
  | x :: l, p, a, hpa => by
      by_cases hx : x = a
      · subst hx
        rw [List.erase_cons_head]
        rw [List.filter_cons_of_neg hpa]
      · rw [List.erase_cons_tail (by simp [hx])]
        by_cases hpx : p x = true
        · rw [List.filter_cons_of_pos hpx, List.filter_cons_of_pos hpx,
            filter_erase_of_neg l p a hpa]
        · rw [List.filter_cons_of_neg hpx, List.filter_cons_of_neg hpx,
            filter_erase_of_neg l p a hpa]

theorem bufferFromTrace_hooks_congr :
    ∀ (trace : List TraceEv) (hooks1 hooks2 : List String),
      (∀ q ∈ trace.map (fun ev => ev.1),
        hooks1.filter (fun n => decide (hookPath n = q)) =
          hooks2.filter (fun n => decide (hookPath n = q))) →
      bufferFromTrace trace hooks1 = bufferFromTrace trace hooks2
  | [], hooks1, hooks2, h => rfl
  | ev :: rest, hooks1, hooks2, h => by
      rw [bufferFromTrace, bufferFromTrace, List.flatMap_cons, List.flatMap_cons]
      rw [h ev.1 (by simp)]
      rw [show rest.flatMap (fun ev =>
          (hooks1.filter (fun n => decide (hookPath n = ev.1))).map (fun _ => ev.2)) =
          bufferFromTrace rest hooks1 from rfl]
      rw [show rest.flatMap (fun ev =>
          (hooks2.filter (fun n => decide (hookPath n = ev.1))).map (fun _ => ev.2)) =
          bufferFromTrace rest hooks2 from rfl]
      rw [bufferFromTrace_hooks_congr rest hooks1 hooks2
        (fun q hq => h q (by simp at hq ⊢; exact Or.inr hq))]

/-- With distinct trace paths, distinct registered paths, and every
registered path visited by the trace, the hook buffer of a pass is a
permutation of the per-registered-name block outputs. -/
theorem bufferFromTrace_perm :
    ∀ (trace : List TraceEv) (hooks : List String),
      (trace.map (fun ev => ev.1)).Nodup →
      (hooks.map hookPath).Nodup →
      (∀ n ∈ hooks, hookPath n ∈ trace.map (fun ev => ev.1)) →
      (bufferFromTrace trace hooks).Perm
        (hooks.map (fun n => traceVal trace (hookPath n)))
  | [], hooks, hnd, hh, hmem => by
      cases hooks with
      | nil => simp [bufferFromTrace]
      | cons n hs => simpa using hmem n (List.mem_cons_self n hs)
  | ev :: rest, hooks, hnd, hh, hmem => by
      have hooksnd : hooks.Nodup := List.Nodup.of_map hookPath hh
      have hndrest : (rest.map (fun ev => ev.1)).Nodup := by
        rw [List.map_cons] at hnd
        exact (List.nodup_cons.mp hnd).2
      have hevnotin : ev.1 ∉ rest.map (fun ev => ev.1) := by
        rw [List.map_cons] at hnd
        exact (List.nodup_cons.mp hnd).1
      by_cases hex : ∃ n0 ∈ hooks, hookPath n0 = ev.1
      · obtain ⟨n0, hn0mem, hn0path⟩ := hex
        have huniq : ∀ b ∈ hooks, hookPath b = ev.1 → b = n0 := by
          intro b hb hbp
          exact List.inj_on_of_nodup_map hh hb hn0mem (by rw [hbp, hn0path])
        have hfil : hooks.filter (fun n => decide (hookPath n = ev.1)) = [n0] :=
          filter_eq_singleton_of_unique hooks _ n0 hn0mem (by simp [hn0path]) hooksnd
            (fun b hb hpb => huniq b hb (by simpa using hpb))
        have hbuf : bufferFromTrace (ev :: rest) hooks =
            ev.2 :: bufferFromTrace rest hooks := by
          rw [bufferFromTrace, List.flatMap_cons, hfil]
          rfl
        have hcongr : bufferFromTrace rest hooks =
            bufferFromTrace rest (hooks.erase n0) := by
          refine bufferFromTrace_hooks_congr rest hooks (hooks.erase n0) ?_
          intro q hq
          have hqne : ¬ hookPath n0 = q := by
            intro he
            rw [hn0path] at he
            rw [← he] at hq
            exact hevnotin hq
          rw [filter_erase_of_neg hooks _ n0 (by simpa using hqne)]
        have herasend : ((hooks.erase n0).map hookPath).Nodup :=
          List.Nodup.sublist (List.Sublist.map hookPath (List.erase_sublist n0 hooks)) hh
        have hmem2 : ∀ n ∈ hooks.erase n0, hookPath n ∈ rest.map (fun ev => ev.1) := by
          intro n hn
          have hnh : n ∈ hooks := List.mem_of_mem_erase hn
          have hne : n ≠ n0 := by
            intro he
            subst he
            exact hooksnd.not_mem_erase hn
          have hpne : ¬ hookPath n = ev.1 := by
            intro he
            exact hne (huniq n hnh he)
          have := hmem n hnh
          rw [List.map_cons] at this
          rcases List.mem_cons.mp this with h | h
          · exact absurd h hpne
          · exact h
        have hih := bufferFromTrace_perm rest (hooks.erase n0) hndrest herasend hmem2
        have hlhs : (bufferFromTrace (ev :: rest) hooks).Perm
            (ev.2 :: (hooks.erase n0).map (fun n => traceVal rest (hookPath n))) := by
          rw [hbuf, hcongr]
          exact List.Perm.cons ev.2 hih
        have hrhs : (hooks.map (fun n => traceVal (ev :: rest) (hookPath n))).Perm
            (ev.2 :: (hooks.erase n0).map (fun n => traceVal rest (hookPath n))) := by
          have hp1 := List.Perm.map (fun n => traceVal (ev :: rest) (hookPath n))
            (List.perm_cons_erase hn0mem)
          rw [List.map_cons] at hp1
          have hv0 : traceVal (ev :: rest) (hookPath n0) = ev.2 :=
            traceVal_cons_pos ev rest _ hn0path.symm
          rw [hv0] at hp1
          have hmapeq : (hooks.erase n0).map (fun n => traceVal (ev :: rest) (hookPath n)) =
              (hooks.erase n0).map (fun n => traceVal rest (hookPath n)) := by
            refine List.map_congr_left ?_
            intro n hn
            have hnh : n ∈ hooks := List.mem_of_mem_erase hn
            have hne : n ≠ n0 := by
              intro he
              subst he
              exact hooksnd.not_mem_erase hn
            refine traceVal_cons_neg ev rest _ ?_
            intro he
            exact hne (huniq n hnh he.symm)
          rw [hmapeq] at hp1
          exact hp1
        exact hlhs.trans hrhs.symm
      · have hfil : hooks.filter (fun n => decide (hookPath n = ev.1)) = [] := by
          rw [List.filter_eq_nil_iff]
          intro n hn hp
          exact hex ⟨n, hn, by simpa using hp⟩
        have hbuf : bufferFromTrace (ev :: rest) hooks = bufferFromTrace rest hooks := by
          rw [bufferFromTrace, List.flatMap_cons, hfil]
          rfl
        have hmem2 : ∀ n ∈ hooks, hookPath n ∈ rest.map (fun ev => ev.1) := by
          intro n hn
          have := hmem n hn
          rw [List.map_cons] at this
          rcases List.mem_cons.mp this with h | h
          · exact absurd ⟨n, hn, h⟩ hex
          · exact h
        have hih := bufferFromTrace_perm rest hooks hndrest hh hmem2
        have hmapeq : hooks.map (fun n => traceVal (ev :: rest) (hookPath n)) =
            hooks.map (fun n => traceVal rest (hookPath n)) := by
          refine List.map_congr_left ?_
          intro n hn
          refine traceVal_cons_neg ev rest _ ?_
          intro he
          exact hex ⟨n, hn, he.symm⟩
        rw [hbuf, hmapeq]
        exact hih

/-- A successful `register_hint_layers` call appends the names to the hook
bookkeeping (in order), changes nothing else, and certifies that every name
resolves on both trees. -/
theorem register_hint_layers_spec :
    ∀ (names : List String) (ws ws2 : WrappedStudent),
      ws.register_hint_layers names = some ws2 →
      ws2 = { ws with
        aux_block_names := ws.aux_block_names ++ names
        teacher_hook_handlers := ws.teacher_hook_handlers ++ names
        student_hook_handlers := ws.student_hook_handlers ++ names } ∧
      ∀ n ∈ names, (get_block n ws.teacher).isSome ∧ (get_block n ws.model).isSome
  | [], ws, ws2, h => by
      have h2 : ws = ws2 := by
        simpa [WrappedStudent.register_hint_layers] using h
      subst h2
      exact ⟨by simp, by simp⟩
  | n :: rest, ws, ws2, h => by
      rw [WrappedStudent.register_hint_layers, List.foldlM_cons] at h
      cases hg1 : get_block n ws.teacher with
      | none => simp [hg1] at h
      | some tb =>
        cases hg2 : get_block n ws.model with
        | none => simp [hg1, hg2] at h
        | some sb =>
          have h2 : WrappedStudent.register_hint_layers { ws with
              aux_block_names := ws.aux_block_names ++ [n]
              teacher_hook_handlers := ws.teacher_hook_handlers ++ [n]
              student_hook_handlers := ws.student_hook_handlers ++ [n] } rest =
              some ws2 := by
            rw [WrappedStudent.register_hint_layers]
            simpa [hg1, hg2] using h
          obtain ⟨heq, hres⟩ := register_hint_layers_spec rest _ ws2 h2
          constructor
          · rw [heq]
            simp
          · intro m hm
            rcases List.mem_cons.mp hm with hmn | hmr
            · subst hmn
              exact ⟨by simp [hg1], by simp [hg2]⟩
            · exact hres m hmr

/-! ## C6: forward hook buffers -/

/-- C6 (amended): with hint layers registered at distinct resolvable paths on
sequential-container models, every `forward` pass rebuilds both hidden-output
buffers from scratch — the buffers are emptied at the start of the pass and
their final contents do not depend on anything captured earlier — and after
the pass each buffer holds exactly one captured output per registered block
(a permutation of the per-registered-path block outputs; the buffer order is
the execution order of the blocks within the pass, which coincides with the
registration order exactly when the paths were registered in execution order
— see the counterexample).  Trees and hook registrations are untouched by
the pass, so the same holds for every consecutive pass. -/
theorem forward_buffers_per_registered_block (F : Nat → Nat → Nat)
    (ws0 ws : WrappedStudent) (names : List String) (x : Nat)
    (hempty : ws0.student_hook_handlers = [] ∧ ws0.teacher_hook_handlers = [] ∧
      ws0.aux_block_names = [])
    (hreg : ws0.register_hint_layers names = some ws)
    (hseqT : seqOnly ws0.teacher = true) (hseqS : seqOnly ws0.model = true)
    (hnd : (names.map hookPath).Nodup) :
    ((ws.forward F x).2.teacher_hidden_outputs).Perm
      (names.map (fun n => traceVal (runTree F ws.teacher [] x).2 (hookPath n))) ∧
    ((ws.forward F x).2.student_hidden_outputs).Perm
      (names.map (fun n => traceVal (runTree F ws.model [] x).2 (hookPath n))) ∧
    (ws.forward F x).2.teacher_hidden_outputs.length = names.length ∧
    (ws.forward F x).2.student_hidden_outputs.length = names.length ∧
    (∀ bufS bufT, WrappedStudent.forward F
        { ws with student_hidden_outputs := bufS, teacher_hidden_outputs := bufT } x =
        ws.forward F x) ∧
    (ws.forward F x).2.teacher = ws.teacher ∧
    (ws.forward F x).2.model = ws.model ∧
    (ws.forward F x).2.student_hook_handlers = ws.student_hook_handlers ∧
    (ws.forward F x).2.teacher_hook_handlers = ws.teacher_hook_handlers := by
  obtain ⟨heq, hres⟩ := register_hint_layers_spec names ws0 ws hreg
  obtain ⟨hS0, hT0, hA0⟩ := hempty
  have hwsT : ws.teacher = ws0.teacher := by rw [heq]
  have hwsM : ws.model = ws0.model := by rw [heq]
  have hwsHT : ws.teacher_hook_handlers = names := by rw [heq]; simp [hT0]
  have hwsHS : ws.student_hook_handlers = names := by rw [heq]; simp [hS0]
  have hbufT : (ws.forward F x).2.teacher_hidden_outputs =
      bufferFromTrace (runTree F ws.teacher [] x).2 names := by
    rw [WrappedStudent.forward]
    simp [hwsHT]
  have hbufS : (ws.forward F x).2.student_hidden_outputs =
      bufferFromTrace (runTree F ws.model [] x).2 names := by
    rw [WrappedStudent.forward]
    simp [hwsHS]
  have hpermT : (bufferFromTrace (runTree F ws.teacher [] x).2 names).Perm
      (names.map (fun n => traceVal (runTree F ws.teacher [] x).2 (hookPath n))) := by
    refine bufferFromTrace_perm _ names ?_ hnd ?_
    · rw [runTree_paths]
      exact treePaths_nodup _ [] (by rw [hwsT]; exact hseqT)
    · intro n hn
      obtain ⟨b, hb⟩ := Option.isSome_iff_exists.mp (hres n hn).1
      rw [runTree_paths]
      rw [hwsT]
      exact resolve_mem_treePaths (pySplitDot n) ws0.teacher [] b hseqT hb
  have hpermS : (bufferFromTrace (runTree F ws.model [] x).2 names).Perm
      (names.map (fun n => traceVal (runTree F ws.model [] x).2 (hookPath n))) := by
    refine bufferFromTrace_perm _ names ?_ hnd ?_
    · rw [runTree_paths]
      exact treePaths_nodup _ [] (by rw [hwsM]; exact hseqS)
    · intro n hn
      obtain ⟨b, hb⟩ := Option.isSome_iff_exists.mp (hres n hn).2
      rw [runTree_paths]
      rw [hwsM]
      exact resolve_mem_treePaths (pySplitDot n) ws0.model [] b hseqS hb
  refine ⟨by rw [hbufT]; exact hpermT, by rw [hbufS]; exact hpermS, ?_, ?_, ?_, ?_, ?_, ?_, ?_⟩
  · rw [hbufT]
    rw [hpermT.length_eq]
    simp
  · rw [hbufS]
    rw [hpermS.length_eq]
    simp
  · intro bufS bufT
    rfl
  · rfl
  · rfl
  · rfl
  · rfl

/-- C6 witness: the theorem instantiated on a two-block sequential model with
hint layers registered at `["0", "1"]`. -/
theorem forward_buffers_per_registered_block_witness :
    ((wsTwoSeqReg.forward (fun lid x => lid + x) 3).2.teacher_hidden_outputs).Perm
      (["0", "1"].map (fun n =>
        traceVal (runTree (fun lid x => lid + x) wsTwoSeqReg.teacher [] 3).2 (hookPath n))) ∧
    ((wsTwoSeqReg.forward (fun lid x => lid + x) 3).2.student_hidden_outputs).Perm
      (["0", "1"].map (fun n =>
        traceVal (runTree (fun lid x => lid + x) wsTwoSeqReg.model [] 3).2 (hookPath n))) ∧
    (wsTwoSeqReg.forward (fun lid x => lid + x) 3).2.teacher_hidden_outputs.length =
      (["0", "1"] : List String).length ∧
    (wsTwoSeqReg.forward (fun lid x => lid + x) 3).2.student_hidden_outputs.length =
      (["0", "1"] : List String).length ∧
    (∀ bufS bufT, WrappedStudent.forward (fun lid x => lid + x)
        { wsTwoSeqReg with student_hidden_outputs := bufS, teacher_hidden_outputs := bufT } 3 =
        wsTwoSeqReg.forward (fun lid x => lid + x) 3) ∧
    (wsTwoSeqReg.forward (fun lid x => lid + x) 3).2.teacher = wsTwoSeqReg.teacher ∧
    (wsTwoSeqReg.forward (fun lid x => lid + x) 3).2.model = wsTwoSeqReg.model ∧
    (wsTwoSeqReg.forward (fun lid x => lid + x) 3).2.student_hook_handlers =
      wsTwoSeqReg.student_hook_handlers ∧
    (wsTwoSeqReg.forward (fun lid x => lid + x) 3).2.teacher_hook_handlers =
      wsTwoSeqReg.teacher_hook_handlers :=
  forward_buffers_per_registered_block (fun lid x => lid + x) wsTwoSeq wsTwoSeqReg
    ["0", "1"] 3 ⟨rfl, rfl, rfl⟩ rfl rfl rfl (by decide)

/-- C6 counterexample: register hint layers at `["1", "0"]` — the reverse of
the execution order — on a two-block sequential model (leaf outputs chosen to
be the layer identifiers).  The buffer then reads `[1, 2]`: position `0`
holds the output of block `"0"` (the first block to *run*), not the output
`2` of the first *registered* path `"1"`.  Buffer position `i` therefore does
not correspond to the `i`-th registered path. -/
theorem forward_buffer_order_cex :
    wsTwoSeq.register_hint_layers ["1", "0"] = some wsTwoSeqRegRev ∧
    (wsTwoSeqRegRev.forward (fun lid _ => lid) 5).2.student_hidden_outputs = [1, 2] ∧
    (wsTwoSeqRegRev.forward (fun lid _ => lid) 5).2.teacher_hidden_outputs = [1, 2] ∧
    traceVal (runTree (fun lid _ => lid) wsTwoSeqRegRev.model [] 5).2 (hookPath "1") = 2 ∧
    (1 : Nat) ≠ 2 :=
  ⟨rfl, rfl, rfl, rfl, by decide⟩

/-! ## C4: a pruner failure aborts the event before any replacement -/

/-- If some zipped (entry, layer) pair makes the pruner raise, the pruning
loop raises (with the first such error). -/
theorem pruneLayers_error_of_mem (t : KDPTrainer) :
    ∀ pairs : List (PlanEntry × MTree),
      (∃ pr ∈ pairs, ∃ msg,
        t.pruner pr.2 (pr.1.compress_rate.getD t.compress_rate) = .error msg) →
      ∃ s, pruneLayers t pairs = .error s
  | [], h => by
      obtain ⟨pr, hmem, _⟩ := h
      simp at hmem
  | (e, layer) :: rest, h => by
      cases hp : t.pruner layer (e.compress_rate.getD t.compress_rate) with
      | error s => exact ⟨s, by simp [pruneLayers, hp]⟩
      | ok nb =>
          obtain ⟨pr, hmem, msg, herr⟩ := h
          rcases List.mem_cons.mp hmem with he | he
          · subst he
            rw [hp] at herr
            exact Except.noConfusion herr
          · obtain ⟨s, hs⟩ := pruneLayers_error_of_mem t rest ⟨pr, he, msg, herr⟩
            exact ⟨s, by simp [pruneLayers, hp, hs]⟩

/-- A non-empty pruning event delegates to `pruneCore` on the frozen,
TA-reset state. -/
theorem prune_eq_core (t0 : KDPTrainer) (epoch : Nat)
    (hne : ¬ (t0.pruning_plan.filter (fun e => e.epoch = epoch)).isEmpty) :
    t0.prune epoch = KDPTrainer.pruneCore { t0.freezeModel with ta_count := 1 }
      (t0.pruning_plan.filter (fun e => e.epoch = epoch)) := by
  rw [KDPTrainer.prune]
  exact if_neg hne

/-- C4: when any due entry's pruning fails, the whole event aborts with no
student block replaced for any entry (and the optimizer and scheduler also
untouched): the state at the raise is the pre-event state with only the
blanket `requires_grad` freeze applied — block substitution happens in a
single `update_pruned_layers` call after every entry has been pruned, so a
pruner failure on any entry precedes every substitution. -/
theorem prune_aborts_before_any_replacement (t0 : KDPTrainer) (epoch : Nat)
    (layers : List MTree)
    (hres : resolveLayers { t0.freezeModel with ta_count := 1 }
      (t0.pruning_plan.filter (fun e => e.epoch = epoch)) = some layers)
    (hfail : ∃ pr ∈ (t0.pruning_plan.filter (fun e => e.epoch = epoch)).zip layers,
      ∃ msg, t0.pruner pr.2 (pr.1.compress_rate.getD t0.compress_rate) = .error msg) :
    ∃ s tE, t0.prune epoch = .error (s, tE) ∧
      tE.model.model = t0.model.model.freezeAll ∧
      tE.model.teacher = t0.model.teacher.freezeAll ∧
      tE.model.replaced_block_names = t0.model.replaced_block_names ∧
      tE.model.student_blocks = t0.model.student_blocks ∧
      tE.model.teacher_blocks = t0.model.teacher_blocks ∧
      tE.optimizer = t0.optimizer ∧
      tE.lr_scheduler = t0.lr_scheduler := by
  have hzne : (t0.pruning_plan.filter (fun e => e.epoch = epoch)).zip layers ≠ [] := by
    obtain ⟨pr, hmem, _⟩ := hfail
    exact List.ne_nil_of_mem hmem
  have hdne : ¬ (t0.pruning_plan.filter (fun e => e.epoch = epoch)).isEmpty := by
    intro h
    rw [List.isEmpty_iff] at h
    rw [h] at hzne
    simp at hzne
  obtain ⟨s, hs⟩ :=
    pruneLayers_error_of_mem { t0.freezeModel with ta_count := 1 }
      ((t0.pruning_plan.filter (fun e => e.epoch = epoch)).zip layers) hfail
  refine ⟨s, { t0.freezeModel with ta_count := 1 }, ?_, rfl, rfl, rfl, rfl, rfl, rfl, rfl⟩
  have hcore : KDPTrainer.pruneCore { t0.freezeModel with ta_count := 1 }
      (t0.pruning_plan.filter (fun e => e.epoch = epoch)) =
      .error (s, { t0.freezeModel with ta_count := 1 }) := by
    generalize ht2 : ({ t0.freezeModel with ta_count := 1 } : KDPTrainer) = t2 at hres hs ⊢
    simp only [KDPTrainer.pruneCore, hres, hs]
  calc t0.prune epoch
      = KDPTrainer.pruneCore { t0.freezeModel with ta_count := 1 }
          (t0.pruning_plan.filter (fun e => e.epoch = epoch)) := prune_eq_core t0 epoch hdne
    _ = .error (s, { t0.freezeModel with ta_count := 1 }) := hcore

/-- C4 witness: the concrete two-entry trainer; the pruner fails on the
second entry and the event aborts with both student blocks unreplaced. -/
theorem prune_aborts_before_any_replacement_witness :
    ∃ s tE, kdpFailing.prune 5 = .error (s, tE) ∧
      tE.model.model = kdpFailing.model.model.freezeAll ∧
      tE.model.teacher = kdpFailing.model.teacher.freezeAll ∧
      tE.model.replaced_block_names = kdpFailing.model.replaced_block_names ∧
      tE.model.student_blocks = kdpFailing.model.student_blocks ∧
      tE.model.teacher_blocks = kdpFailing.model.teacher_blocks ∧
      tE.optimizer = kdpFailing.optimizer ∧
      tE.lr_scheduler = kdpFailing.lr_scheduler :=
  prune_aborts_before_any_replacement kdpFailing 5
    [.leaf 1 [{ pid := 1, numel := 4, requires_grad := false }],
     .leaf 2 [{ pid := 2, numel := 5, requires_grad := false }]]
    rfl
    ⟨({ name := "b", epoch := 5, compress_rate := none, lr := none },
        .leaf 2 [{ pid := 2, numel := 5, requires_grad := false }]),
      List.Mem.tail _ (List.Mem.head _), "boom", rfl⟩

/-! ## C9: optimizer surgery on a successful event -/

mutual
theorem freezeAll_params (m : MTree) :
    m.freezeAll.params = m.params.map (fun p => { p with requires_grad := false }) := by
  cases m with
  | leaf lid ps => rfl
  | seq cs =>
    show paramsList (freezeAllList cs) = _
    rw [freezeAllList_params cs]
    rfl
  | node cs =>
    show paramsNamed (freezeAllNamed cs) = _
    rw [freezeAllNamed_params cs]
    rfl

theorem freezeAllList_params (cs : List MTree) :
    paramsList (freezeAllList cs) =
      (paramsList cs).map (fun p => { p with requires_grad := false }) := by
  cases cs with
  | nil => rfl
  | cons c cs =>
    show c.freezeAll.params ++ paramsList (freezeAllList cs) = _
    rw [freezeAll_params c, freezeAllList_params cs]
    simp [paramsList]

theorem freezeAllNamed_params (cs : List (String × MTree)) :
    paramsNamed (freezeAllNamed cs) =
      (paramsNamed cs).map (fun p => { p with requires_grad := false }) := by
  cases cs with
  | nil => rfl
  | cons kc cs =>
    show kc.2.freezeAll.params ++ paramsNamed (freezeAllNamed cs) = _
    rw [freezeAll_params kc.2, freezeAllNamed_params cs]
    simp [paramsNamed]
end

theorem filter_rg_map_false (l : List Param) :
    (l.map (fun p => { p with requires_grad := false })).filter
      (fun p => p.requires_grad) = [] := by
  rw [List.filter_eq_nil_iff]
  intro p hp
  obtain ⟨q, _, hq⟩ := List.mem_map.mp hp
  rw [← hq]
  simp

/-- After the blanket freeze (and before any new block joins the model), the
trainer has no trainable parameter, whatever the `_ta_count`. -/
theorem trainableParams_freeze (t : KDPTrainer) (c : Nat) :
    ({ t.freezeModel with ta_count := c } : KDPTrainer).trainableParams = [] := by
  show (({ t.freezeModel with ta_count := c } : KDPTrainer).model.parameters.filter
    (fun p => p.requires_grad)) = []
  show ((t.model.teacher.freezeAll.params ++ t.model.model.freezeAll.params).filter
    (fun p => p.requires_grad)) = []
  rw [List.filter_append, freezeAll_params, freezeAll_params,
    filter_rg_map_false, filter_rg_map_false]
  rfl

theorem add_param_group_ok (o : Optimizer) (g : ParamGroup)
    (h : disjointIds g.params (optParams o)) :
    add_param_group o g = .ok { o with param_groups := o.param_groups ++ [g] } := by
  have hfalse : ¬ (g.params.any (fun p =>
      o.param_groups.any (fun g2 => g2.params.any (fun q => q.pid = p.pid)))) = true := by
    intro hc
    rw [List.any_eq_true] at hc
    obtain ⟨p, hp, hc2⟩ := hc
    rw [List.any_eq_true] at hc2
    obtain ⟨g2, hg2, hc3⟩ := hc2
    rw [List.any_eq_true] at hc3
    obtain ⟨q, hq, hc4⟩ := hc3
    have hqp : q.pid = p.pid := by simpa using hc4
    exact h p hp q (List.mem_flatMap.mpr ⟨g2, hg2, hq⟩) hqp.symm
  unfold add_param_group
  rw [if_neg hfalse]

/-- From the second entry on (`i ≥ 1`), the surgery loop only appends one
parameter group per remaining entry to the existing optimizer, each carrying
the entry's lr override or the configured default. -/
theorem surgeryLoop_append :
    ∀ (pairs : List (PlanEntry × MTree)) (t : KDPTrainer) (i : Nat), 1 ≤ i →
      (∀ pr ∈ pairs, disjointIds pr.2.params (optParams t.optimizer)) →
      pairs.Pairwise (fun a b => disjointIds a.2.params b.2.params) →
      surgeryLoop t pairs i = .ok { t with optimizer := { t.optimizer with
        param_groups := t.optimizer.param_groups ++ pairs.map
          (fun pr => { params := pr.2.params, lr := pr.1.lr.getD t.config_lr }) } }
  | [], t, i, hi, hdis, hpw => by
      simp [surgeryLoop]
  | (e, nb) :: rest, t, i, hi, hdis, hpw => by
      have hne0 : ¬ (i = 0 ∧ t.trainableParams = []) := by
        intro hc
        omega
      have hadd := add_param_group_ok t.optimizer
        { params := nb.params, lr := e.lr.getD t.config_lr }
        (hdis (e, nb) (List.mem_cons_self _ _))
      have hstep : surgeryStep t i e nb = .ok { t with optimizer := { t.optimizer with
          param_groups := t.optimizer.param_groups ++
            [{ params := nb.params, lr := e.lr.getD t.config_lr }] } } := by
        unfold surgeryStep
        rw [if_neg hne0, hadd]
      have hpw2 := List.pairwise_cons.mp hpw
      have hdis2 : ∀ pr ∈ rest, disjointIds pr.2.params (optParams
          ({ t with optimizer := { t.optimizer with
            param_groups := t.optimizer.param_groups ++
              [{ params := nb.params, lr := e.lr.getD t.config_lr }] } } :
              KDPTrainer).optimizer) := by
        intro pr hpr p hp q hq
        have hq2 : q ∈ optParams t.optimizer ++ nb.params := by
          have : optParams { t.optimizer with
              param_groups := t.optimizer.param_groups ++
                [{ params := nb.params, lr := e.lr.getD t.config_lr }] } =
              optParams t.optimizer ++ nb.params := by
            unfold optParams
            rw [List.flatMap_append]
            simp
          rwa [this] at hq
        rcases List.mem_append.mp hq2 with h | h
        · exact hdis pr (List.mem_cons_of_mem _ hpr) p hp q h
        · exact (hpw2.1 pr hpr q h p hp).symm
      have hrest := surgeryLoop_append rest
        ({ t with optimizer := { t.optimizer with
          param_groups := t.optimizer.param_groups ++
            [{ params := nb.params, lr := e.lr.getD t.config_lr }] } } : KDPTrainer)
        (i + 1) (by omega) hdis2 hpw2.2
      show (match surgeryStep t i e nb with
        | Except.error s => Except.error (s, t)
        | Except.ok t2 => surgeryLoop t2 rest (i + 1)) = _
      rw [hstep]
      refine Eq.trans hrest ?_
      simp [List.append_assoc]

/-- Shared success characterization of a pruning event: with the due entries
resolved, all pruned, parameters of the new blocks pairwise disjoint, and the
installation succeeding, `prune` returns the frozen state with the new model,
a fresh optimizer whose groups are the per-entry new-block parameter lists
with override-or-default learning rates, and a fresh scheduler over it. -/
theorem prune_success_eq (t0 : KDPTrainer) (epoch : Nat)
    (due : List PlanEntry) (layers newLayers : List MTree) (wsU : WrappedStudent)
    (e0 : PlanEntry) (b0 : MTree) (prs : List (PlanEntry × MTree))
    (hdue : due = t0.pruning_plan.filter (fun e => e.epoch = epoch))
    (hres : resolveLayers { t0.freezeModel with ta_count := 1 } due = some layers)
    (hpl : pruneLayers { t0.freezeModel with ta_count := 1 } (due.zip layers) =
      .ok newLayers)
    (hzip : due.zip newLayers = (e0, b0) :: prs)
    (hpw : ((e0, b0) :: prs).Pairwise (fun a b => disjointIds a.2.params b.2.params))
    (hupd : update_pruned_layers
      ({ t0.freezeModel with ta_count := 1 } : KDPTrainer).model
      ((due.zip newLayers).map (fun pr =>
        { old_block_name := pr.1.name
          new_block := pr.2
          new_block_name := pr.1.name })) = some wsU) :
    t0.prune epoch =
      .ok { ({ t0.freezeModel with ta_count := 1 } : KDPTrainer) with
        model := wsU
        optimizer := { oid := t0.fresh
                       param_groups := ((e0, b0) :: prs).map
                         (fun pr => { params := pr.2.params
                                      lr := pr.1.lr.getD t0.config_lr }) }
        lr_scheduler := { optRef := t0.fresh }
        fresh := t0.fresh + 1 } := by
  have htr : ({ t0.freezeModel with ta_count := 1 } : KDPTrainer).trainableParams = [] :=
    trainableParams_freeze t0 1
  have hstep0 : surgeryStep { t0.freezeModel with ta_count := 1 } 0 e0 b0 =
      .ok { ({ t0.freezeModel with ta_count := 1 } : KDPTrainer) with
        optimizer := { oid := t0.fresh
                       param_groups := [{ params := b0.params
                                          lr := e0.lr.getD t0.config_lr }] }
        lr_scheduler := { optRef := t0.fresh }
        fresh := t0.fresh + 1 } := by
    unfold surgeryStep
    rw [if_pos ⟨rfl, htr⟩]
    rfl
  have hpw2 := List.pairwise_cons.mp hpw
  have hloop : surgeryLoop { ({ t0.freezeModel with ta_count := 1 } : KDPTrainer) with
        optimizer := { oid := t0.fresh
                       param_groups := [{ params := b0.params
                                          lr := e0.lr.getD t0.config_lr }] }
        lr_scheduler := { optRef := t0.fresh }
        fresh := t0.fresh + 1 } prs 1 =
      .ok { ({ t0.freezeModel with ta_count := 1 } : KDPTrainer) with
        optimizer := { oid := t0.fresh
                       param_groups := ((e0, b0) :: prs).map
                         (fun pr => { params := pr.2.params
                                      lr := pr.1.lr.getD t0.config_lr }) }
        lr_scheduler := { optRef := t0.fresh }
        fresh := t0.fresh + 1 } := by
    refine Eq.trans (surgeryLoop_append prs _ 1 (by omega) ?_ hpw2.2) ?_
    · intro pr hpr p hp q hq
      have hq2 : q ∈ b0.params := by
        simpa [optParams] using hq
      exact (hpw2.1 pr hpr q hq2 p hp).symm
    · simp [KDPTrainer.freezeModel]
  have hfull : surgeryLoop { t0.freezeModel with ta_count := 1 }
      ((e0, b0) :: prs) 0 =
      .ok { ({ t0.freezeModel with ta_count := 1 } : KDPTrainer) with
        optimizer := { oid := t0.fresh
                       param_groups := ((e0, b0) :: prs).map
                         (fun pr => { params := pr.2.params
                                      lr := pr.1.lr.getD t0.config_lr }) }
        lr_scheduler := { optRef := t0.fresh }
        fresh := t0.fresh + 1 } := by
    show (match surgeryStep { t0.freezeModel with ta_count := 1 } 0 e0 b0 with
      | Except.error s => Except.error (s, { t0.freezeModel with ta_count := 1 })
      | Except.ok t2 => surgeryLoop t2 prs 1) = _
    rw [hstep0]
    exact hloop
  have hne : ¬ (t0.pruning_plan.filter (fun e => e.epoch = epoch)).isEmpty := by
    intro h
    rw [List.isEmpty_iff] at h
    rw [← hdue] at h
    rw [h] at hzip
    simp at hzip
  have hcore : KDPTrainer.pruneCore { t0.freezeModel with ta_count := 1 } due =
      .ok { ({ t0.freezeModel with ta_count := 1 } : KDPTrainer) with
        model := wsU
        optimizer := { oid := t0.fresh
                       param_groups := ((e0, b0) :: prs).map
                         (fun pr => { params := pr.2.params
                                      lr := pr.1.lr.getD t0.config_lr }) }
        lr_scheduler := { optRef := t0.fresh }
        fresh := t0.fresh + 1 } := by
    rw [KDPTrainer.pruneCore]
    simp only [hres, hpl, hzip, hfull]
    simp only [← hzip, hupd]
  rw [hdue] at hcore
  exact (prune_eq_core t0 epoch hne).trans hcore

/-- C9: on a successful pruning event, the optimizer surgery processes the
due entries in plan order.  The first entry always finds zero trainable
parameters (the blanket freeze precedes the loop and the new blocks are not
yet installed), so the old optimizer and scheduler are discarded: a fresh
optimizer (a new object identity, distinct from the old optimizer's) is
built over exactly the first new block's parameters and a fresh scheduler
over that optimizer, and its (single) group's learning rate is set to the
entry's override if present, else the configured default.  Every further
entry adds one parameter group on that (now existing) optimizer, carrying
its own override-or-default learning rate.  Group `i` therefore holds
exactly entry `i`'s new-block parameters with entry `i`'s learning rate. -/
theorem prune_optimizer_surgery (t0 : KDPTrainer) (epoch : Nat)
    (due : List PlanEntry) (layers newLayers : List MTree) (wsU : WrappedStudent)
    (e0 : PlanEntry) (b0 : MTree) (prs : List (PlanEntry × MTree))
    (hdue : due = t0.pruning_plan.filter (fun e => e.epoch = epoch))
    (hres : resolveLayers { t0.freezeModel with ta_count := 1 } due = some layers)
    (hpl : pruneLayers { t0.freezeModel with ta_count := 1 } (due.zip layers) =
      .ok newLayers)
    (hzip : due.zip newLayers = (e0, b0) :: prs)
    (hpw : ((e0, b0) :: prs).Pairwise (fun a b => disjointIds a.2.params b.2.params))
    (hupd : update_pruned_layers
      ({ t0.freezeModel with ta_count := 1 } : KDPTrainer).model
      ((due.zip newLayers).map (fun pr =>
        { old_block_name := pr.1.name
          new_block := pr.2
          new_block_name := pr.1.name })) = some wsU)
    (hoid : t0.optimizer.oid < t0.fresh) :
    ∃ tR, t0.prune epoch = .ok tR ∧
      tR.optimizer.oid = t0.fresh ∧
      tR.optimizer.oid ≠ t0.optimizer.oid ∧
      tR.lr_scheduler = { optRef := tR.optimizer.oid } ∧
      tR.optimizer.param_groups = (due.zip newLayers).map
        (fun pr => { params := pr.2.params, lr := pr.1.lr.getD t0.config_lr }) ∧
      tR.model = wsU ∧
      tR.fresh = t0.fresh + 1 := by
  have hprune := prune_success_eq t0 epoch due layers newLayers wsU e0 b0 prs
    hdue hres hpl hzip hpw hupd
  exact ⟨_, hprune, rfl, Nat.ne_of_gt hoid, rfl, by rw [hzip], rfl, rfl⟩

/-- C9 witness: the concrete two-entry trainer `kdpOk` at epoch 5; the first
group carries the override `lr = 7`, the second the configured default `3`;
the optimizer identity is freshly allocated. -/
theorem prune_optimizer_surgery_witness :
    ∃ tR, kdpOk.prune 5 = .ok tR ∧
      tR.optimizer.oid = kdpOk.fresh ∧
      tR.optimizer.oid ≠ kdpOk.optimizer.oid ∧
      tR.lr_scheduler = { optRef := tR.optimizer.oid } ∧
      tR.optimizer.param_groups =
        (((kdpOk.pruning_plan.filter (fun e => e.epoch = 5)).zip
          [MTree.leaf 11 [{ pid := 101, numel := 3, requires_grad := false },
              { pid := 201, numel := 2, requires_grad := true }],
            MTree.leaf 12 [{ pid := 102, numel := 3, requires_grad := false },
              { pid := 202, numel := 2, requires_grad := true }]]).map
          (fun pr => { params := pr.2.params, lr := pr.1.lr.getD kdpOk.config_lr })) ∧
      tR.model = wsTrainerPruned ∧
      tR.fresh = kdpOk.fresh + 1 :=
  prune_optimizer_surgery kdpOk 5
    (kdpOk.pruning_plan.filter (fun e => e.epoch = 5))
    [.leaf 1 [{ pid := 1, numel := 4, requires_grad := false }],
      .leaf 2 [{ pid := 2, numel := 5, requires_grad := false }]]
    [.leaf 11 [{ pid := 101, numel := 3, requires_grad := false },
        { pid := 201, numel := 2, requires_grad := true }],
      .leaf 12 [{ pid := 102, numel := 3, requires_grad := false },
        { pid := 202, numel := 2, requires_grad := true }]]
    wsTrainerPruned
    { name := "a", epoch := 5, compress_rate := none, lr := some 7 }
    (.leaf 11 [{ pid := 101, numel := 3, requires_grad := false },
      { pid := 201, numel := 2, requires_grad := true }])
    [({ name := "b", epoch := 5, compress_rate := none, lr := none },
      .leaf 12 [{ pid := 102, numel := 3, requires_grad := false },
        { pid := 202, numel := 2, requires_grad := true }])]
    rfl rfl rfl rfl (by decide) rfl (by decide)

/-! ## C5: trainable parameters vs optimizer groups -/

theorem mem_paramsList_of_mem :
    ∀ (cs : List MTree) (c : MTree) (p : Param),
      c ∈ cs → p ∈ c.params → p ∈ paramsList cs
  | [], c, p, hc, hp => by simp at hc
  | c0 :: cs, c, p, hc, hp => by
      rw [show paramsList (c0 :: cs) = c0.params ++ paramsList cs from rfl]
      rcases List.mem_cons.mp hc with h | h
      · subst h
        exact List.mem_append.mpr (Or.inl hp)
      · exact List.mem_append.mpr (Or.inr (mem_paramsList_of_mem cs c p h hp))

theorem mem_paramsNamed_of_mem :
    ∀ (cs : List (String × MTree)) (k : String) (c : MTree) (p : Param),
      (k, c) ∈ cs → p ∈ c.params → p ∈ paramsNamed cs
  | [], k, c, p, hc, hp => by simp at hc
  | kc :: cs, k, c, p, hc, hp => by
      rw [show paramsNamed (kc :: cs) = kc.2.params ++ paramsNamed cs from rfl]
      rcases List.mem_cons.mp hc with h | h
      · rw [← h]
        exact List.mem_append.mpr (Or.inl hp)
      · exact List.mem_append.mpr (Or.inr (mem_paramsNamed_of_mem cs k c p h hp))

/-- A resolved child's parameters are among the parent's parameters. -/
theorem params_getBlockSeg_sub (m : MTree) (seg : String) (c : MTree)
    (h : getBlockSeg m seg = some c) : ∀ p ∈ c.params, p ∈ m.params := by
  intro p hp
  by_cases hd : isdigit seg
  · cases m with
    | seq cs =>
      have h2 : cs[digitsToNat seg]? = some c := by simpa [getBlockSeg, hd] using h
      have hcmem : c ∈ cs := List.getElem?_mem h2
      exact mem_paramsList_of_mem cs c p hcmem hp
    | leaf lid ps => simp [getBlockSeg, hd] at h
    | node cs => simp [getBlockSeg, hd] at h
  · cases m with
    | node cs =>
      have h2 : (cs.find? (fun q => q.1 == seg)).map (fun q => q.2) = some c := by
        simpa [getBlockSeg, hd] using h
      cases hf : cs.find? (fun q => q.1 == seg) with
      | none => rw [hf] at h2; simp at h2
      | some kc =>
        rw [hf] at h2
        simp at h2
        have hmem : kc ∈ cs := List.mem_of_find?_eq_some hf
        have : (kc.1, c) ∈ cs := by
          rw [show (kc.1, c) = kc by rw [← h2]]
          exact hmem
        exact mem_paramsNamed_of_mem cs kc.1 c p this hp
    | leaf lid ps => simp [getBlockSeg, hd] at h
    | seq cs => simp [getBlockSeg, hd] at h

theorem params_set_sub :
    ∀ (cs : List MTree) (i : Nat) (b : MTree) (p : Param),
      p ∈ paramsList (cs.set i b) → p ∈ paramsList cs ∨ p ∈ b.params
  | [], i, b, p, hp => by simp at hp; exact Or.inl (by simp [hp])
  | c :: cs, 0, b, p, hp => by
      rw [List.set_cons_zero] at hp
      rw [show paramsList (b :: cs) = b.params ++ paramsList cs from rfl] at hp
      rcases List.mem_append.mp hp with h | h
      · exact Or.inr h
      · exact Or.inl (by
          rw [show paramsList (c :: cs) = c.params ++ paramsList cs from rfl]
          exact List.mem_append.mpr (Or.inr h))
  | c :: cs, i + 1, b, p, hp => by
      rw [List.set_cons_succ] at hp
      rw [show paramsList (c :: cs.set i b) = c.params ++ paramsList (cs.set i b) from rfl] at hp
      rcases List.mem_append.mp hp with h | h
      · exact Or.inl (by
          rw [show paramsList (c :: cs) = c.params ++ paramsList cs from rfl]
          exact List.mem_append.mpr (Or.inl h))
      · rcases params_set_sub cs i b p h with h2 | h2
        · exact Or.inl (by
            rw [show paramsList (c :: cs) = c.params ++ paramsList cs from rfl]
            exact List.mem_append.mpr (Or.inr h2))
        · exact Or.inr h2

theorem params_replaceEntry_sub :
    ∀ (cs : List (String × MTree)) (name : String) (b : MTree) (p : Param),
      p ∈ paramsNamed (replaceEntry cs name b) → p ∈ paramsNamed cs ∨ p ∈ b.params
  | [], name, b, p, hp => by
      rw [show replaceEntry [] name b = [(name, b)] from rfl] at hp
      rw [show paramsNamed [(name, b)] = b.params ++ paramsNamed [] from rfl] at hp
      rcases List.mem_append.mp hp with h | h
      · exact Or.inr h
      · simp [paramsNamed] at h
  | (k, v) :: rest, name, b, p, hp => by
      by_cases hk : k = name
      · rw [show replaceEntry ((k, v) :: rest) name b = (name, b) :: rest by
          simp [replaceEntry, hk]] at hp
        rw [show paramsNamed ((name, b) :: rest) = b.params ++ paramsNamed rest from rfl] at hp
        rcases List.mem_append.mp hp with h | h
        · exact Or.inr h
        · exact Or.inl (by
            rw [show paramsNamed ((k, v) :: rest) = v.params ++ paramsNamed rest from rfl]
            exact List.mem_append.mpr (Or.inr h))
      · rw [show replaceEntry ((k, v) :: rest) name b = (k, v) :: replaceEntry rest name b by
          simp [replaceEntry, hk]] at hp
        rw [show paramsNamed ((k, v) :: replaceEntry rest name b) =
          v.params ++ paramsNamed (replaceEntry rest name b) from rfl] at hp
        rcases List.mem_append.mp hp with h | h
        · exact Or.inl (by
            rw [show paramsNamed ((k, v) :: rest) = v.params ++ paramsNamed rest from rfl]
            exact List.mem_append.mpr (Or.inl h))
        · rcases params_replaceEntry_sub rest name b p h with h2 | h2
          · exact Or.inl (by
              rw [show paramsNamed ((k, v) :: rest) = v.params ++ paramsNamed rest from rfl]
              exact List.mem_append.mpr (Or.inr h2))
          · exact Or.inr h2

/-- A `setattr` adds at most the parameters of the written block. -/
theorem params_setAttr_sub (m : MTree) (name : String) (b : MTree) :
    ∀ p ∈ (setAttr m name b).params, p ∈ m.params ∨ p ∈ b.params := by
  intro p hp
  by_cases hd : isdigit name
  · cases m with
    | seq cs =>
      rw [show setAttr (.seq cs) name b = .seq (cs.set (digitsToNat name) b) by
        simp [setAttr, hd]] at hp
      exact params_set_sub cs (digitsToNat name) b p hp
    | leaf lid ps =>
      rw [show setAttr (.leaf lid ps) name b = .leaf lid ps by simp [setAttr, hd]] at hp
      exact Or.inl hp
    | node cs =>
      rw [show setAttr (.node cs) name b = .node cs by simp [setAttr, hd]] at hp
      exact Or.inl hp
  · cases m with
    | node cs =>
      rw [show setAttr (.node cs) name b = .node (replaceEntry cs name b) by
        simp [setAttr, hd]] at hp
      exact params_replaceEntry_sub cs name b p hp
    | leaf lid ps =>
      rw [show setAttr (.leaf lid ps) name b = .leaf lid ps by simp [setAttr, hd]] at hp
      exact Or.inl hp
    | seq cs =>
      rw [show setAttr (.seq cs) name b = .seq cs by simp [setAttr, hd]] at hp
      exact Or.inl hp

theorem params_modifyAt_sub (b : MTree) :
    ∀ (segs : List String) (m m2 : MTree) (seg2 : String),
      modifyAt m segs (fun obj => setAttr obj seg2 b) = some m2 →
      ∀ p ∈ m2.params, p ∈ m.params ∨ p ∈ b.params
  | [], m, m2, seg2, h, p, hp => by
      have h2 : setAttr m seg2 b = m2 := by simpa [modifyAt] using h
      rw [← h2] at hp
      exact params_setAttr_sub m seg2 b p hp
  | seg :: rest, m, m2, seg2, h, p, hp => by
      cases hc : getBlockSeg m seg with
      | none => simp [modifyAt, hc] at h
      | some c =>
        cases hc2 : modifyAt c rest (fun obj => setAttr obj seg2 b) with
        | none => simp [modifyAt, hc, hc2] at h
        | some c2 =>
          have h2 : setAttr m seg c2 = m2 := by simpa [modifyAt, hc, hc2] using h
          rw [← h2] at hp
          rcases params_setAttr_sub m seg c2 p hp with h3 | h3
          · exact Or.inl h3
          · rcases params_modifyAt_sub b rest c c2 seg2 hc2 p h3 with h4 | h4
            · exact Or.inl (params_getBlockSeg_sub m seg c hc p h4)
            · exact Or.inr h4

/-- `_set_block` on the student tree adds at most the written block's
parameters and never touches the teacher tree. -/
theorem params_set_block_sub (ws ws2 : WrappedStudent) (name : String) (b : MTree)
    (h : ws._set_block name b ModelSel.student = some ws2) :
    (∀ p ∈ ws2.model.params, p ∈ ws.model.params ∨ p ∈ b.params) ∧
    ws2.teacher = ws.teacher := by
  unfold WrappedStudent._set_block at h
  by_cases hlen : (pySplitDot name).length = 1
  · rw [if_pos hlen] at h
    have h2 : ({ ws with model := setAttr ws.model name b } : WrappedStudent) = ws2 := by
      simpa using h
    rw [← h2]
    exact ⟨fun p hp => params_setAttr_sub ws.model name b p hp, rfl⟩
  · rw [if_neg hlen] at h
    cases hm : modifyAt (ws.selTree ModelSel.student) (pySplitDot name).dropLast
        (fun obj => setAttr obj ((pySplitDot name).getLastD "") b) with
    | none => rw [hm] at h; simp at h
    | some t2 =>
      rw [hm] at h
      simp at h
      rw [← h]
      exact ⟨fun p hp => params_modifyAt_sub b _ ws.model t2 _ hm p hp, rfl⟩

/-- `update_pruned_layers` adds at most the new blocks' parameters to the
student tree and leaves the teacher tree alone. -/
theorem params_update_sub :
    ∀ (args : List DistillationArgs) (ws ws2 : WrappedStudent),
      update_pruned_layers ws args = some ws2 →
      (∀ p ∈ ws2.model.params,
        p ∈ ws.model.params ∨ ∃ a ∈ args, p ∈ a.new_block.params) ∧
      ws2.teacher = ws.teacher
  | [], ws, ws2, h => by
      have h2 : ws = ws2 := by simpa [update_pruned_layers] using h
      rw [← h2]
      exact ⟨fun p hp => Or.inl hp, rfl⟩
  | a :: rest, ws, ws2, h => by
      rw [update_pruned_layers, List.foldlM_cons] at h
      cases hg : get_block a.old_block_name ws.teacher with
      | none => simp [hg] at h
      | some tb =>
        cases hsb : WrappedStudent._set_block { ws with
            replaced_block_names := ws.replaced_block_names ++ [a.old_block_name]
            teacher_blocks := ws.teacher_blocks ++ [tb]
            student_blocks := ws.student_blocks ++ [a.new_block] }
            a.new_block_name a.new_block ModelSel.student with
        | none => simp [hg, hsb] at h
        | some wsc =>
          have h2 : update_pruned_layers wsc rest = some ws2 := by
            rw [update_pruned_layers]
            simpa [hg, hsb] using h
          obtain ⟨hsub1, hteach1⟩ := params_set_block_sub _ wsc a.new_block_name a.new_block hsb
          obtain ⟨hsub2, hteach2⟩ := params_update_sub rest wsc ws2 h2
          refine ⟨?_, by rw [hteach2, hteach1]⟩
          intro p hp
          rcases hsub2 p hp with hl | ⟨a2, ha2, hpa2⟩
          · rcases hsub1 p hl with h3 | h3
            · exact Or.inl h3
            · exact Or.inr ⟨a, List.mem_cons_self _ _, h3⟩
          · exact Or.inr ⟨a2, List.mem_cons_of_mem _ ha2, hpa2⟩

/-- Every parameter of a frozen tree has `requires_grad = false`. -/
theorem freezeAll_rg_false (m : MTree) :
    ∀ p ∈ m.freezeAll.params, p.requires_grad = false := by
  intro p hp
  rw [freezeAll_params] at hp
  obtain ⟨q, _, hq⟩ := List.mem_map.mp hp
  rw [← hq]

/-- C5 (amended): after a successful pruning event, the optimizer's parameter
groups are exactly the per-entry new-block parameter lists — pairwise
disjoint, so no parameter is referenced by two groups — and every parameter
of the model with `requires_grad` true is referenced by some group.  The
groups however also reference the new blocks' frozen (pruned-layer)
parameters, which `dump_trainable_params` does not count, so the two element
sums differ in general (see the counterexample). -/
theorem prune_trainable_in_optimizer (t0 : KDPTrainer) (epoch : Nat)
    (due : List PlanEntry) (layers newLayers : List MTree) (wsU : WrappedStudent)
    (e0 : PlanEntry) (b0 : MTree) (prs : List (PlanEntry × MTree))
    (hdue : due = t0.pruning_plan.filter (fun e => e.epoch = epoch))
    (hres : resolveLayers { t0.freezeModel with ta_count := 1 } due = some layers)
    (hpl : pruneLayers { t0.freezeModel with ta_count := 1 } (due.zip layers) =
      .ok newLayers)
    (hzip : due.zip newLayers = (e0, b0) :: prs)
    (hpw : ((e0, b0) :: prs).Pairwise (fun a b => disjointIds a.2.params b.2.params))
    (hupd : update_pruned_layers
      ({ t0.freezeModel with ta_count := 1 } : KDPTrainer).model
      ((due.zip newLayers).map (fun pr =>
        { old_block_name := pr.1.name
          new_block := pr.2
          new_block_name := pr.1.name })) = some wsU) :
    ∃ tR, t0.prune epoch = .ok tR ∧
      tR.optimizer.param_groups = (due.zip newLayers).map
        (fun pr => { params := pr.2.params, lr := pr.1.lr.getD t0.config_lr }) ∧
      tR.optimizer.param_groups.Pairwise (fun g1 g2 => disjointIds g1.params g2.params) ∧
      (∀ p ∈ tR.model.parameters, p.requires_grad = true → p ∈ optParams tR.optimizer) := by
  have hprune := prune_success_eq t0 epoch due layers newLayers wsU e0 b0 prs
    hdue hres hpl hzip hpw hupd
  refine ⟨_, hprune, by rw [hzip], ?_, ?_⟩
  · show (((e0, b0) :: prs).map
      (fun pr => ({ params := pr.2.params, lr := pr.1.lr.getD t0.config_lr } : ParamGroup))).Pairwise
      (fun g1 g2 => disjointIds g1.params g2.params)
    rw [List.pairwise_map]
    exact hpw
  · intro p hp hrg
    obtain ⟨hsub, hteach⟩ := params_update_sub _ _ wsU hupd
    have hp2 : p ∈ wsU.teacher.params ++ wsU.model.params := hp
    rcases List.mem_append.mp hp2 with h | h
    · rw [hteach] at h
      have := freezeAll_rg_false t0.model.teacher p h
      rw [this] at hrg
      exact absurd hrg (by simp)
    · rcases hsub p h with h2 | ⟨a, ha, hpa⟩
      · have := freezeAll_rg_false t0.model.model p h2
        rw [this] at hrg
        exact absurd hrg (by simp)
      · obtain ⟨pr, hpr, hae⟩ := List.mem_map.mp ha
        rw [← hae] at hpa
        refine List.mem_flatMap.mpr ?_
        refine ⟨{ params := pr.2.params, lr := pr.1.lr.getD t0.config_lr }, ?_, hpa⟩
        show _ ∈ ((e0, b0) :: prs).map
          (fun pr => ({ params := pr.2.params, lr := pr.1.lr.getD t0.config_lr } : ParamGroup))
        rw [← hzip]
        exact List.mem_map.mpr ⟨pr, hpr, rfl⟩

/-- C5 witness: the concrete two-entry trainer `kdpOk` at epoch 5. -/
theorem prune_trainable_in_optimizer_witness :
    ∃ tR, kdpOk.prune 5 = .ok tR ∧
      tR.optimizer.param_groups =
        (((kdpOk.pruning_plan.filter (fun e => e.epoch = 5)).zip
          [MTree.leaf 11 [{ pid := 101, numel := 3, requires_grad := false },
              { pid := 201, numel := 2, requires_grad := true }],
            MTree.leaf 12 [{ pid := 102, numel := 3, requires_grad := false },
              { pid := 202, numel := 2, requires_grad := true }]]).map
          (fun pr => { params := pr.2.params, lr := pr.1.lr.getD kdpOk.config_lr })) ∧
      tR.optimizer.param_groups.Pairwise (fun g1 g2 => disjointIds g1.params g2.params) ∧
      (∀ p ∈ tR.model.parameters, p.requires_grad = true → p ∈ optParams tR.optimizer) :=
  prune_trainable_in_optimizer kdpOk 5
    (kdpOk.pruning_plan.filter (fun e => e.epoch = 5))
    [.leaf 1 [{ pid := 1, numel := 4, requires_grad := false }],
      .leaf 2 [{ pid := 2, numel := 5, requires_grad := false }]]
    [.leaf 11 [{ pid := 101, numel := 3, requires_grad := false },
        { pid := 201, numel := 2, requires_grad := true }],
      .leaf 12 [{ pid := 102, numel := 3, requires_grad := false },
        { pid := 202, numel := 2, requires_grad := true }]]
    wsTrainerPruned
    { name := "a", epoch := 5, compress_rate := none, lr := some 7 }
    (.leaf 11 [{ pid := 101, numel := 3, requires_grad := false },
      { pid := 201, numel := 2, requires_grad := true }])
    [({ name := "b", epoch := 5, compress_rate := none, lr := none },
      .leaf 12 [{ pid := 102, numel := 3, requires_grad := false },
        { pid := 202, numel := 2, requires_grad := true }])]
    rfl rfl rfl rfl (by decide) rfl

/-- C5 counterexample: a successful single-entry event on `kdpOne`.  The new
block holds a frozen 3-element parameter (the pruned layer) and a trainable
2-element parameter (the transform block); the optimizer's single group
references both, so `dump_trainable_params` counts 2 elements while the
optimizer's groups count 5 — the two sums do not match and the trainable set
is a strict subset of the optimizer's parameters. -/
theorem dump_vs_optimizer_cex :
    ∃ tR, kdpOne.prune 5 = .ok tR ∧
      tR.model.dump_trainable_params = 2 ∧
      optimizerNumel tR.optimizer = 5 ∧
      (2 : Nat) ≠ 5 :=
  ⟨_, rfl, rfl, rfl, by decide⟩

end KD
